import Mathlib

/-!
Verification of the schema-resolution and tag-range-allocation engine of the
tiro repository (`src/support/codegen/ast.py`, `src/scripts/modules/codegen/ast.py`,
`src/scripts/modules/codegen/unions.py`, `src/utils/codegen/unions.py`).

The Python object graph of a resolved node-type hierarchy (a `Type` with its
`final` flag and its name-sorted `derived` list, plus its members) is embedded
as the inductive tree `NType`.  The stateful Python functions (`type_tags`,
which mutates a shared `tags` list and a `next_value` counter; `slot_types`,
which threads a `member_seen` set and a `member_types` list; the registry's
`__add_all` / `__resolve_references` / `__bind_base_classes`, which mutate the
registry dict in place) are embedded with explicit state passing, and every
`raise RuntimeError(...)` site becomes a distinct constructor of an error type
carried by `Except`.
-/

namespace Tiro

/-- A member of a node type, from `src/support/codegen/ast.py`
(`DataMember`, `DataListMember`, `NodeMember`, `NodeListMember`).
For `node` / `nodeList` members the stored string is the `cpp_name` of the
(resolved) referenced node type; for `data` / `dataList` members it is the
scalar type name. -/
inductive SMember where
  | data (name : String) (dataType : String)
  | dataList (name : String) (elementType : String)
  | node (name : String) (nodeCppName : String)
  | nodeList (name : String) (elementCppName : String)
deriving DecidableEq, Repr

/-- The `cpp_type` attribute computed by the member classes in
`src/support/codegen/ast.py`: `DataMember.cpp_type = data_type`,
`DataListMember.cpp_type = f"std::vector<{element_type}>"`,
`NodeMember.cpp_type = f"AstPtr<{node_type.cpp_name}>"`,
`NodeListMember.cpp_type = f"AstNodeList<{element_type.cpp_name}>"`. -/
def SMember.cppType : SMember → String
  | .data _ dataType => dataType
  | .dataList _ elementType => "std::vector<" ++ elementType ++ ">"
  | .node _ nodeCppName => "AstPtr<" ++ nodeCppName ++ ">"
  | .nodeList _ elementCppName => "AstNodeList<" ++ elementCppName ++ ">"

/-- `isinstance(member, NodeMember) or isinstance(member, NodeListMember)`
(the `is_child` test of `slot_types`). -/
def SMember.isChild : SMember → Bool
  | .node _ _ => true
  | .nodeList _ _ => true
  | _ => false

/-- A resolved node type of the hierarchy (`Type` in
`src/support/codegen/ast.py` after `NodeRegistry.__finish` ran): its `name`,
its `cpp_name`, its `final` flag, its `members` and its name-sorted `derived`
list of direct children. -/
inductive NType where
  | mk (name : String) (cppName : String) (final : Bool) (members : List SMember)
      (derived : List NType)
deriving Repr

def NType.name : NType → String
  | .mk n _ _ _ _ => n

def NType.cppName : NType → String
  | .mk _ c _ _ _ => c

def NType.final : NType → Bool
  | .mk _ _ f _ _ => f

def NType.members : NType → List SMember
  | .mk _ _ _ ms _ => ms

def NType.derived : NType → List NType
  | .mk _ _ _ _ ds => ds

/-- The single failure mode of `type_tags`
(`raise RuntimeError(f"Base class without any children: {node.name}.")`). -/
inductive TagError where
  | emptyHierarchy (name : String)
deriving DecidableEq, Repr

/-- The `first = low if first is None else min(first, low)` update of
`type_tags`' child loop. -/
def combineMin : Option Nat → Nat → Nat
  | none, v => v
  | some f, v => min f v

/-- The `last = high if last is None else max(last, high)` update of
`type_tags`' child loop. -/
def combineMax : Option Nat → Nat → Nat
  | none, v => v
  | some l, v => max l v

mutual

/-- The inner `visit` closure of `type_tags` in `src/support/codegen/ast.py`
(lines 598-618).  The mutated nonlocals `tags` and `next_value` are passed
and returned explicitly; the returned pair `(low, high)` of the Python
function becomes the first component of the `.ok` result. -/
def visit : NType → List (String × Nat) → Nat →
    Except TagError ((Nat × Nat) × (List (String × Nat) × Nat))
  | .mk name _ final _ derived, tags, next =>
    if final then
      .ok ((next, next), (tags ++ [(name, next)], next + 1))
    else
      match visitChildren derived tags next none none with
      | .error e => .error e
      | .ok ((first?, last?), (tags', next')) =>
        match first?, last? with
        | some first, some last =>
          .ok ((first, last),
            (tags' ++ [("First" ++ name, first), ("Last" ++ name, last)], next'))
        | _, _ => .error (.emptyHierarchy name)

/-- The `for child in node.derived` loop of `visit`, threading the running
`first` / `last` optionals exactly as the Python code does
(`first = low if first is None else min(first, low)` and the `max` analogue). -/
def visitChildren : List NType → List (String × Nat) → Nat → Option Nat → Option Nat →
    Except TagError ((Option Nat × Option Nat) × (List (String × Nat) × Nat))
  | [], tags, next, first?, last? => .ok ((first?, last?), (tags, next))
  | c :: cs, tags, next, first?, last? =>
    match visit c tags next with
    | .error e => .error e
    | .ok ((low, high), (tags', next')) =>
      visitChildren cs tags' next'
        (some (combineMin first? low)) (some (combineMax last? high))

end

/-- `type_tags()` of `src/support/codegen/ast.py` (lines 591-621), applied to
the hierarchy rooted at the given node (the Python code roots the traversal at
`NODE_TYPES.get("Node")`): run `visit` with `tags = []` and `next_value = 1`
and return the accumulated tag list, discarding the root's returned range. -/
def typeTags (root : NType) : Except TagError (List (String × Nat)) :=
  match visit root [] 1 with
  | .error e => .error e
  | .ok (_, (tags, _)) => .ok tags

/-- Example hierarchy from the spec's end-to-end scenario:
`Node`(abstract) with children `Expr`(abstract) -> {`Call`, `Literal`} and
`Stmt`(abstract) -> {`ExprStmt`}, derived lists already name-sorted. -/
def exTree : NType :=
  .mk "Node" "AstNode" false []
    [ .mk "Expr" "AstExpr" false []
        [ .mk "Call" "AstCall" true [] []
        , .mk "Literal" "AstLiteral" true [] [] ]
    , .mk "Stmt" "AstStmt" false []
        [ .mk "ExprStmt" "AstExprStmt" true [] [] ] ]

mutual

/-- The inner `visit` closure of `type_tags` in
`src/scripts/modules/codegen/ast.py` (lines 488-515), the older generation of
the allocator, embedded separately so the two generations can be compared. -/
def visitScripts : NType → List (String × Nat) → Nat →
    Except TagError ((Nat × Nat) × (List (String × Nat) × Nat))
  | .mk name _ final _ derived, tags, next =>
    if final then
      .ok ((next, next), (tags ++ [(name, next)], next + 1))
    else
      match visitChildrenScripts derived tags next none none with
      | .error e => .error e
      | .ok ((first?, last?), (tags', next')) =>
        match first?, last? with
        | some first, some last =>
          .ok ((first, last),
            (tags' ++ [("First" ++ name, first), ("Last" ++ name, last)], next'))
        | _, _ => .error (.emptyHierarchy name)

/-- The `for child in node.derived` loop of the scripts-generation `visit`. -/
def visitChildrenScripts : List NType → List (String × Nat) → Nat → Option Nat → Option Nat →
    Except TagError ((Option Nat × Option Nat) × (List (String × Nat) × Nat))
  | [], tags, next, first?, last? => .ok ((first?, last?), (tags, next))
  | c :: cs, tags, next, first?, last? =>
    match visitScripts c tags next with
    | .error e => .error e
    | .ok ((low, high), (tags', next')) =>
      visitChildrenScripts cs tags' next'
        (some (combineMin first? low)) (some (combineMax last? high))

end

/-- `type_tags()` of `src/scripts/modules/codegen/ast.py` (lines 488-515),
applied to the hierarchy rooted at the given node. -/
def typeTagsScripts (root : NType) : Except TagError (List (String × Nat)) :=
  match visitScripts root [] 1 with
  | .error e => .error e
  | .ok (_, (tags, _)) => .ok tags

mutual

/-- `__walk_types` / `walk_types` of `src/support/codegen/ast.py`
(lines 560-578): yield the base, and if it is not final, recurse into its
derived children. -/
def walkTypes : NType → List NType
  | .mk name cppName final members derived =>
    .mk name cppName final members derived ::
      (if final then [] else walkTypesList derived)

/-- The `for child in base.derived` loop of `__walk_types`. -/
def walkTypesList : List NType → List NType
  | [] => []
  | c :: cs => walkTypes c ++ walkTypesList cs

end

/-- The `for member in node_type.members` loop body of `slot_types`:
thread the `member_seen` set (a list of `cpp_type` keys queried by
membership only) and the `member_types` accumulator. -/
def collectMembers : List SMember → List String → List SMember →
    List String × List SMember
  | [], seen, acc => (seen, acc)
  | m :: ms, seen, acc =>
    if !(seen.contains m.cppType) && m.isChild then
      collectMembers ms (seen ++ [m.cppType]) (acc ++ [m])
    else
      collectMembers ms seen acc

/-- The outer `for node_type in walk_types()` loop of `slot_types`. -/
def collectSlots : List NType → List String → List SMember →
    List String × List SMember
  | [], seen, acc => (seen, acc)
  | t :: rest, seen, acc =>
    let (seen', acc') := collectMembers t.members seen acc
    collectSlots rest seen' acc'

/-- `slot_types()` of `src/support/codegen/ast.py` (lines 624-639), applied
to the hierarchy rooted at the given node: collect the first member seen for
each distinct `cpp_type` among `Node` / `NodeList` members, then sort by
`cpp_type`. -/
def slotTypes (root : NType) : List SMember :=
  (collectSlots (walkTypes root) [] []).2.mergeSort
    (fun a b => a.cppType ≤ b.cppType)

mutual

/-- Names of the concrete (final) types of a hierarchy, in the order in which
the `type_tags` traversal encounters them (children in `derived` order). -/
def finalsOf : NType → List String
  | .mk name _ true _ _ => [name]
  | .mk _ _ false _ derived => finalsList derived

/-- `finalsOf` accumulated over a list of children, left to right. -/
def finalsList : List NType → List String
  | [] => []
  | c :: cs => finalsOf c ++ finalsList cs

end

mutual

/-- Number of abstract (non-final) nodes the `type_tags` traversal visits. -/
def absCount : NType → Nat
  | .mk _ _ true _ _ => 0
  | .mk _ _ false _ derived => absCountList derived + 1

/-- `absCount` summed over a list of children. -/
def absCountList : List NType → Nat
  | [] => 0
  | c :: cs => absCount c + absCountList cs

end

mutual

/-- Whether the `type_tags` traversal reaches an abstract node with an empty
`derived` list (final nodes are not descended into). -/
def hasEmptyAbstract : NType → Bool
  | .mk _ _ true _ _ => false
  | .mk _ _ false _ derived => derived.isEmpty || hasEmptyAbstractList derived

/-- `hasEmptyAbstract` over a list of children. -/
def hasEmptyAbstractList : List NType → Bool
  | [] => false
  | c :: cs => hasEmptyAbstract c || hasEmptyAbstractList cs

end

mutual

/-- Whether the part of the hierarchy reachable by the `type_tags` traversal
contains an abstract node with the given name and an empty `derived` list. -/
def emptyAbstractNamed : NType → String → Bool
  | .mk _ _ true _ _, _ => false
  | .mk name _ false _ derived, nm =>
    (derived.isEmpty && name == nm) || emptyAbstractNamedList derived nm

/-- `emptyAbstractNamed` over a list of children. -/
def emptyAbstractNamedList : List NType → String → Bool
  | [], _ => false
  | c :: cs, nm => emptyAbstractNamed c nm || emptyAbstractNamedList cs nm

end

/-- Number of concrete types among the first `i` children of a list:
the amount by which the counter has advanced when the `type_tags` traversal
reaches child `i`. -/
def prefFinals (l : List NType) (i : Nat) : Nat :=
  (finalsList (l.take i)).length

/-- The `cpp_type` keys of all `Node` / `NodeList` members encountered by the
`slot_types` walk, in walk order, with repetitions. -/
def childSlotKeys (root : NType) : List String :=
  (((walkTypes root).flatMap NType.members).filter (fun m => m.isChild)).map
    SMember.cppType

/-- The `cpp_name`s of the node types referenced by `Node` / `NodeList`
members encountered by the `slot_types` walk, in walk order, with
repetitions (the referenced "child node type" of each child member). -/
def childNodeNames (root : NType) : List String :=
  (((walkTypes root).flatMap NType.members).filter (fun m => m.isChild)).map
    (fun m => match m with
      | .node _ nodeCppName => nodeCppName
      | .nodeList _ elementCppName => elementCppName
      | .data _ s => s
      | .dataList _ s => s)

/-- A reference to a node type as stored in a declaration
(`base` of `Type`, `node_type` of `NodeMember`, `element_type` of
`NodeListMember` in `src/support/codegen/ast.py`): absent (`None`), a string
naming a type, or an already-resolved `Type` object (identified by its
unique registry name). -/
inductive RefV where
  | name (s : String)
  | resolved (s : String)
deriving DecidableEq, Repr

/-- An optional type reference (`None` in Python becomes `none`). -/
abbrev Ref := Option RefV

/-- The name a reference points at, if any. -/
def refName : Ref → Option String
  | none => none
  | some (.name s) => some s
  | some (.resolved s) => some s

/-- A member of a registered type definition, before resolution
(`DataMember`, `DataListMember`, `NodeMember`, `NodeListMember` of
`src/support/codegen/ast.py`; `node` / `nodeList` carry a `Ref`). -/
inductive MemberDef where
  | data (name : String) (dataType : String) (required : Bool)
  | dataList (name : String) (elementType : String) (required : Bool)
  | node (name : String) (nodeType : Ref) (required : Bool)
  | nodeList (name : String) (elementType : Ref) (required : Bool)
deriving DecidableEq, Repr

/-- A type definition as registered with `NodeRegistry`
(`Type` / `RootNode` / `Node` of `src/support/codegen/ast.py`): `isNode`
records `isinstance(definition, Node)`, which gates member resolution;
`derived` is the back-reference list populated by `__bind_base_classes`. -/
structure TypeDef where
  name : String
  base : Ref
  final : Bool
  isNode : Bool
  members : List MemberDef
  derived : List String
deriving DecidableEq, Repr

/-- The failure modes of `NodeRegistry`: `__add_all`'s
`"Type ... was already defined."`, `get`'s `"Type ... was not defined."` and
`__bind_base_classes`'s `"Cannot derive from final type ..."`. -/
inductive RegError where
  | duplicateName (s : String)
  | unknownType (s : String)
  | finalDerivation (s : String)
deriving DecidableEq, Repr

/-- `NodeRegistry.__add_all` (`src/support/codegen/ast.py` lines 26-32):
add each definition under its name, failing on an already-present name.
The registry dict (insertion-ordered, unique keys) is the accumulator list. -/
def addAll (acc : List TypeDef) : List TypeDef → Except RegError (List TypeDef)
  | [] => .ok acc
  | d :: ds =>
    if acc.any (fun e => e.name == d.name) then .error (.duplicateName d.name)
    else addAll (acc ++ [d]) ds

/-- `NodeRegistry.get` (lines 19-24): the type with the given name, or
`UnknownTypeError`. -/
def getDef (reg : List TypeDef) (s : String) : Except RegError TypeDef :=
  match reg.find? (fun d => d.name == s) with
  | some d => .ok d
  | none => .error (.unknownType s)

/-- The inner `resolve` closure of `__resolve_references` (lines 39-46):
`None` stays, a resolved `Type` object stays, a string is looked up. -/
def resolveRef (reg : List TypeDef) : Ref → Except RegError Ref
  | none => .ok none
  | some (.resolved s) => .ok (some (.resolved s))
  | some (.name s) =>
    match getDef reg s with
    | .error e => .error e
    | .ok d => .ok (some (.resolved d.name))

/-- The member-resolution part of `__resolve_references` (lines 52-56):
only `NodeMember.node_type` and `NodeListMember.element_type` are resolved. -/
def resolveMember (reg : List TypeDef) : MemberDef → Except RegError MemberDef
  | .node nm r req =>
    match resolveRef reg r with
    | .error e => .error e
    | .ok r' => .ok (.node nm r' req)
  | .nodeList nm r req =>
    match resolveRef reg r with
    | .error e => .error e
    | .ok r' => .ok (.nodeList nm r' req)
  | m => .ok m

/-- A `for` loop collecting `Except` results in order, failing at the first
error (the effect of Python's in-place mutation loops over the registry). -/
def mapE (f : α → Except ε β) : List α → Except ε (List β)
  | [] => .ok []
  | a :: as =>
    match f a with
    | .error e => .error e
    | .ok b =>
      match mapE f as with
      | .error e => .error e
      | .ok bs => .ok (b :: bs)

/-- Resolution of one definition inside `__resolve_references` (lines 48-56):
resolve `base`, and for `Node` instances also resolve the node-typed member
references. -/
def resolveDef (reg : List TypeDef) (d : TypeDef) : Except RegError TypeDef :=
  match resolveRef reg d.base with
  | .error e => .error e
  | .ok b =>
    if d.isNode then
      match mapE (resolveMember reg) d.members with
      | .error e => .error e
      | .ok ms => .ok { d with base := b, members := ms }
    else
      .ok { d with base := b }

/-- `NodeRegistry.__resolve_references` (lines 38-56): resolve every
definition, in registration order. -/
def resolveReferences (reg : List TypeDef) : Except RegError (List TypeDef) :=
  mapE (resolveDef reg) reg

/-- `base.derived.append(definition)`: append `childName` to the `derived`
list of the entry named `b`. -/
def appendDerived (reg : List TypeDef) (b childName : String) : List TypeDef :=
  reg.map (fun e =>
    if e.name == b then { e with derived := e.derived ++ [childName] } else e)

/-- The first loop of `NodeRegistry.__bind_base_classes` (lines 58-66),
iterating over the registered definitions and threading the registry whose
`derived` lists it mutates.  A definition whose `base` resolved to a final
type raises `FinalDerivationError` naming the base. -/
def bindLoop (reg : List TypeDef) : List TypeDef → Except RegError (List TypeDef)
  | [] => .ok reg
  | d :: ds =>
    match d.base with
    | some (.resolved b) =>
      match reg.find? (fun e => e.name == b) with
      | some bd =>
        if bd.final then .error (.finalDerivation b)
        else bindLoop (appendDerived reg b d.name) ds
      | none => .error (.unknownType b)
    | _ => bindLoop reg ds

/-- The second loop of `__bind_base_classes` (lines 68-71): sort every
`derived` list by name. -/
def sortDerived (reg : List TypeDef) : List TypeDef :=
  reg.map (fun e => { e with derived := e.derived.mergeSort (fun a b => a ≤ b) })

/-- `NodeRegistry.__bind_base_classes` (lines 58-71). -/
def bindBaseClasses (reg : List TypeDef) : Except RegError (List TypeDef) :=
  match bindLoop reg reg with
  | .error e => .error e
  | .ok reg' => .ok (sortDerived reg')

/-- `NodeRegistry.__init__` (lines 14-17): `__add_all` then `__finish`,
which is `__resolve_references` followed by `__bind_base_classes`. -/
def nodeRegistry (ds : List TypeDef) : Except RegError (List TypeDef) :=
  match addAll [] ds with
  | .error e => .error e
  | .ok reg =>
    match resolveReferences reg with
    | .error e => .error e
    | .ok reg' => bindBaseClasses reg'

/-- `Tag` of `src/scripts/modules/codegen/unions.py` (lines 7-14): the tag
enum declaration of a union; `union` is the back-reference set by
`Union.__init__`, identified by the owning union's name (it is `None` for a
freshly constructed tag). -/
structure UTag where
  name : String
  underlyingType : String
  startValue : Option Nat
  doc : Option String
  union : Option String
deriving DecidableEq, Repr

/-- `Tag.__init__`: a fresh tag has `union = None`. -/
def mkTag (name underlyingType : String) (startValue : Option Nat)
    (doc : Option String) : UTag :=
  { name := name, underlyingType := underlyingType, startValue := startValue,
    doc := doc, union := none }

/-- The failure modes of the union model of
`src/scripts/modules/codegen/unions.py`: `Union.__init__`'s
`"Tag already belongs to a different union"` and the setters'
`"Invalid value for 'which': ..."`. -/
inductive UnionError where
  | tagAlreadyBound
  | invalidValue (which : String)
deriving DecidableEq, Repr

/-- `Union` of `src/scripts/modules/codegen/unions.py` (lines 17-33), with
the defaults set by `__init__`; the member list is kept abstract as the list
of member names. -/
structure CGUnion where
  name : String
  tag : UTag
  doc : Option String
  members : List String
  format : Option String
  equality : Option String
  hash : Option String
  docMode : String
  storageMode : String
  isFinal : Bool
deriving DecidableEq, Repr

/-- `Union.__init__` (lines 18-33): initialize the capability defaults, and
bind the tag — `if tag.union: raise ...` else `tag.union = self`.  The
mutated tag is returned alongside the union holding it. -/
def mkUnion (name : String) (tag : UTag) (members : List String)
    (doc : Option String) : Except UnionError (CGUnion × UTag) :=
  if tag.union.isSome then .error .tagAlreadyBound
  else
    let tag' := { tag with union := some name }
    .ok ({ name := name, tag := tag', doc := doc, members := members,
           format := none, equality := none, hash := none,
           docMode := "member", storageMode := "trivial", isFinal := true },
         tag')

/-- `Union.set_format_mode` (lines 37-41): `which` must be `None`,
`"declare"` or `"define"`. -/
def setFormatMode (u : CGUnion) (which : Option String) :
    Except UnionError CGUnion :=
  if which = none ∨ which = some "declare" ∨ which = some "define" then
    .ok { u with format := which }
  else .error (.invalidValue (which.getD ""))

/-- `Union.set_equality_mode` (lines 44-48). -/
def setEqualityMode (u : CGUnion) (which : Option String) :
    Except UnionError CGUnion :=
  if which = none ∨ which = some "define" then
    .ok { u with equality := which }
  else .error (.invalidValue (which.getD ""))

/-- `Union.set_hash_mode` (lines 51-55). -/
def setHashMode (u : CGUnion) (which : Option String) :
    Except UnionError CGUnion :=
  if which = none ∨ which = some "define" then
    .ok { u with hash := which }
  else .error (.invalidValue (which.getD ""))

/-- `Union.set_doc_mode` (lines 59-63): `which` must be `"member"` or
`"tag"`; nothing else is checked — in particular the tag's `doc` is not
consulted. -/
def setDocMode (u : CGUnion) (which : String) : Except UnionError CGUnion :=
  if which = "member" ∨ which = "tag" then
    .ok { u with docMode := which }
  else .error (.invalidValue which)

/-- `Union.set_storage_mode` (lines 67-71). -/
def setStorageMode (u : CGUnion) (which : String) : Except UnionError CGUnion :=
  if which = "trivial" ∨ which = "movable" then
    .ok { u with storageMode := which }
  else .error (.invalidValue which)

/-- `Union.set_final` (lines 73-77). -/
def setFinal (u : CGUnion) (which : Bool) : Except UnionError CGUnion :=
  .ok { u with isFinal := which }

/-- `TaggedUnion` of `src/utils/codegen/unions.py` (lines 18-32), the older
generation of the union model (no `start_value` on its tags, a `trivial`
flag instead of `storage_mode`, no `is_final`). -/
structure TaggedUnion where
  name : String
  tag : UTag
  doc : Option String
  members : List String
  format : Option String
  equality : Option String
  hash : Option String
  trivial : Bool
  docMode : String
deriving DecidableEq, Repr

/-- `TaggedUnion.__init__` (lines 18-32): same tag-binding protocol as
`Union.__init__` — `if tag.union: raise ...` else `tag.union = self`. -/
def mkTaggedUnion (name : String) (tag : UTag) (members : List String)
    (doc : Option String) : Except UnionError (TaggedUnion × UTag) :=
  if tag.union.isSome then .error .tagAlreadyBound
  else
    let tag' := { tag with union := some name }
    .ok ({ name := name, tag := tag', doc := doc, members := members,
           format := none, equality := none, hash := none,
           trivial := true, docMode := "member" },
         tag')

/-- The string (unresolved) reference names contained in a reference. -/
def refStrings : Ref → List String
  | some (.name s) => [s]
  | _ => []

/-- The string reference names contained in a member
(only `Node` / `NodeList` members carry type references). -/
def memberRefStrings : MemberDef → List String
  | .node _ r _ => refStrings r
  | .nodeList _ r _ => refStrings r
  | _ => []

/-- All string reference names `__resolve_references` will try to look up for
one definition: its `base` plus, for `Node` instances, its member
references. -/
def defRefStrings (d : TypeDef) : List String :=
  refStrings d.base ++ (if d.isNode then d.members.flatMap memberRefStrings else [])

/-- All string reference names `__resolve_references` will try to look up
for a registry. -/
def regRefStrings (reg : List TypeDef) : List String :=
  reg.flatMap defRefStrings

/-- The declarative content of the `resolve` closure: `None` stays `None`, an
already-resolved reference stays itself, and a string is replaced by the
(present) registered type of exactly that name. -/
def refResolvedTo (reg : List TypeDef) : Ref → Ref → Prop
  | none, r' => r' = none
  | some (.resolved s), r' => r' = some (.resolved s)
  | some (.name s), r' =>
    r' = some (.resolved s) ∧ (reg.find? (fun d => d.name == s)).isSome = true

/-- The declarative content of member resolution: `Node` / `NodeList`
members get their reference resolved, all other members are untouched. -/
def memberResolvedTo (reg : List TypeDef) (m m' : MemberDef) : Prop :=
  match m with
  | .node nm r req => ∃ r', m' = .node nm r' req ∧ refResolvedTo reg r r'
  | .nodeList nm r req => ∃ r', m' = .nodeList nm r' req ∧ refResolvedTo reg r r'
  | m => m' = m

/-- The declarative content of `__resolve_references` for one definition:
everything but `base` (and, for `Node` instances, the member references) is
unchanged. -/
def defResolvedTo (reg : List TypeDef) (d d' : TypeDef) : Prop :=
  d'.name = d.name ∧ d'.final = d.final ∧ d'.isNode = d.isNode ∧
  d'.derived = d.derived ∧
  refResolvedTo reg d.base d'.base ∧
  (d.isNode = true → List.Forall₂ (memberResolvedTo reg) d.members d'.members) ∧
  (d.isNode = false → d'.members = d.members)

/-- The expected tag table for `exTree` (spec's end-to-end scenario). -/
def exTags : List (String × Nat) :=
  [("Call", 1), ("Literal", 2), ("FirstExpr", 1), ("LastExpr", 2),
   ("ExprStmt", 3), ("FirstStmt", 3), ("LastStmt", 3),
   ("FirstNode", 1), ("LastNode", 3)]

/-- The children of the `Expr` subtree of the example hierarchy. -/
def exprChildren : List NType :=
  [NType.mk "Call" "AstCall" true [] [], NType.mk "Literal" "AstLiteral" true [] []]

/-- The tag entries emitted while visiting the `Expr` subtree alone. -/
def exprOut : List (String × Nat) :=
  [("Call", 1), ("Literal", 2), ("FirstExpr", 1), ("LastExpr", 2)]

/-- A malformed hierarchy: the abstract `Stmt` groups nothing. -/
def badTree : NType :=
  .mk "Node" "AstNode" false [] [.mk "Stmt" "AstStmt" false [] []]

/-- A hierarchy whose single concrete type has a `Node` member and a
`NodeList` member referencing the same child node type (`AstExpr`). -/
def exSlot : NType :=
  .mk "Node" "AstNode" false []
    [ .mk "Block" "AstBlock" true
        [ SMember.nodeList "rest" "AstExpr", SMember.node "first" "AstExpr" ] [] ]

/-- Example registry entries for the registry claims. -/
def tdNode : TypeDef := ⟨"Node", none, false, false, [], []⟩

def tdExpr : TypeDef :=
  ⟨"Expr", some (.name "Node"), true, true,
   [MemberDef.node "child" (some (.name "Node")) false], []⟩

def tdExprResolved : TypeDef :=
  ⟨"Expr", some (.resolved "Node"), true, true,
   [MemberDef.node "child" (some (.resolved "Node")) false], []⟩

def tdDup : TypeDef := ⟨"Expr", none, true, true, [], []⟩

/-- A final type and a type deriving from it. -/
def tdFinalB : TypeDef := ⟨"B", none, true, true, [], []⟩

def tdChildC : TypeDef := ⟨"C", some (.name "B"), true, true, [], []⟩

/-- A tag without a doc string, and the union built from it. -/
def exTagNoDoc : UTag := mkTag "T" "u8" none none

def exUnionNoDoc : CGUnion :=
  { name := "U", tag := { exTagNoDoc with union := some "U" }, doc := none,
    members := [], format := none, equality := none, hash := none,
    docMode := "member", storageMode := "trivial", isFinal := true }

/-! ### Helper lemmas about the tag allocator -/

theorem finalsList_append (xs ys : List NType) :
    finalsList (xs ++ ys) = finalsList xs ++ finalsList ys := by
  induction xs with
  | nil => simp [finalsList]
  | cons c cs ih => simp [finalsList, ih]

theorem combineMin_le (f? : Option Nat) (n : Nat) : combineMin f? n ≤ n := by
  cases f? with
  | none => exact le_refl n
  | some f => exact min_le_right f n

theorem combineMin_min (f? : Option Nat) (a b : Nat) (h : a ≤ b) :
    min (combineMin f? a) b = combineMin f? a :=
  min_eq_left (le_trans (combineMin_le f? a) h)

theorem le_combineMax (l? : Option Nat) (n : Nat) : n ≤ combineMax l? n := by
  cases l? with
  | none => exact le_refl n
  | some l => exact le_max_right l n

theorem combineMax_max (l? : Option Nat) (a b : Nat) (h : a ≤ b) :
    max (combineMax l? a) b = combineMax l? b := by
  cases l? with
  | none => exact max_eq_right h
  | some l => rw [combineMax, combineMax, max_assoc, max_eq_right h]

theorem combineMin_chain (f? : Option Nat) (a b : Nat) (h : a ≤ b) :
    combineMin (some (combineMin f? a)) b = combineMin f? a := by
  cases f? with
  | none => exact min_eq_left h
  | some fv =>
    show min (min fv a) b = min fv a
    rw [min_assoc]
    congr 1
    exact min_eq_left h

theorem combineMax_chain (l? : Option Nat) (a b : Nat) (h : a ≤ b) :
    combineMax (some (combineMax l? a)) b = combineMax l? b := by
  cases l? with
  | none => exact max_eq_right h
  | some lv =>
    show max (max lv a) b = max lv b
    rw [max_assoc]
    congr 1
    exact max_eq_right h

theorem prefFinals_zero (l : List NType) : prefFinals l 0 = 0 := by
  simp [prefFinals, finalsList]

theorem prefFinals_cons (c : NType) (cs : List NType) (i : Nat) :
    prefFinals (c :: cs) (i + 1) = (finalsOf c).length + prefFinals cs i := by
  simp [prefFinals, List.take_succ_cons, finalsList, finalsList_append]

theorem range'_split (s m k : Nat) :
    List.range' s (m + k) = List.range' s m ++ List.range' (s + m) k := by
  rw [Nat.add_comm m k]
  simp [List.range'_append]

mutual

theorem visit_append (t : NType) : ∀ (ts : List (String × Nat)) (n : Nat),
    visit t ts n = (visit t [] n).map (fun r => (r.1, (ts ++ r.2.1, r.2.2))) := by
  match t with
  | .mk name cppName final members derived =>
    intro ts n
    by_cases hf : final = true
    · subst hf
      simp [visit, Except.map]
    · replace hf : final = false := by simpa using hf
      subst hf
      rw [visit, visit]
      rw [visitChildren_append derived ts n none none]
      cases h0 : visitChildren derived [] n none none with
      | error e => simp [Except.map]
      | ok r =>
        obtain ⟨⟨first?, last?⟩, ts0, n0⟩ := r
        cases first? <;> cases last? <;> simp [Except.map]

theorem visitChildren_append (l : List NType) :
    ∀ (ts : List (String × Nat)) (n : Nat) (f? l? : Option Nat),
    visitChildren l ts n f? l? =
      (visitChildren l [] n f? l?).map (fun r => (r.1, (ts ++ r.2.1, r.2.2))) := by
  match l with
  | [] => intro ts n f? l?; simp [visitChildren, Except.map]
  | c :: cs =>
    intro ts n f? l?
    rw [visitChildren, visitChildren]
    rw [visit_append c ts n]
    cases h0 : visit c [] n with
    | error e => simp [Except.map]
    | ok r =>
      obtain ⟨⟨low, high⟩, ts0, n0⟩ := r
      simp only [Except.map]
      rw [visitChildren_append cs (ts ++ ts0) n0, visitChildren_append cs ts0 n0]
      cases hv : visitChildren cs [] n0 (some (combineMin f? low))
          (some (combineMax l? high)) with
      | error e => simp [Except.map]
      | ok r2 => simp [Except.map]

end

mutual

theorem visit_ok_spec (t : NType) :
    ∀ (ts : List (String × Nat)) (n lo hi : Nat) (ts' : List (String × Nat)) (n' : Nat),
    visit t ts n = .ok ((lo, hi), (ts', n')) →
    lo = n ∧ n' = n + (finalsOf t).length ∧ hi = n + (finalsOf t).length - 1 ∧
    1 ≤ (finalsOf t).length ∧
    ∃ new, ts' = ts ++ new ∧
      ((finalsOf t).zip (List.range' n (finalsOf t).length)).Sublist new ∧
      new.length = (finalsOf t).length + 2 * absCount t := by
  match t with
  | .mk name cppName final members derived =>
    intro ts n lo hi ts' n' h
    by_cases hf : final = true
    · subst hf
      simp only [visit, if_true, Except.ok.injEq, Prod.mk.injEq] at h
      obtain ⟨⟨hlo, hhi⟩, hts, hn⟩ := h
      refine ⟨hlo.symm, ?_, ?_, ?_, [(name, n)], ?_, ?_, ?_⟩
      · rw [← hn]; simp [finalsOf]
      · rw [← hhi]; simp [finalsOf]
      · simp [finalsOf]
      · rw [← hts]
      · simp [finalsOf, List.range']
      · simp [finalsOf, absCount]
    · replace hf : final = false := by simpa using hf
      subst hf
      rw [visit] at h
      simp only [Bool.false_eq_true, if_false] at h
      cases h0 : visitChildren derived ts n none none with
      | error e => rw [h0] at h; cases h
      | ok r =>
        rw [h0] at h
        obtain ⟨⟨first?, last?⟩, ts1, n1⟩ := r
        cases first? with
        | none => cases last? <;> simp at h
        | some f =>
          cases last? with
          | none => simp at h
          | some lst =>
            simp only [Except.ok.injEq, Prod.mk.injEq] at h
            obtain ⟨⟨hlo, hhi⟩, hts, hn⟩ := h
            obtain ⟨hn1, hall, hnil, hne, ⟨new1, hts1, hsub1, hlen1⟩, hchild⟩ :=
              visitChildren_ok_spec derived ts n none none (some f) (some lst) ts1 n1 h0
            by_cases hd : derived = []
            · subst hd
              exact absurd (hnil rfl).1 (by simp)
            · obtain ⟨hK, hfr, hlr⟩ := hne hd
              have hf' : f = n := by
                simp [combineMin] at hfr
                exact hfr
              have hl' : lst = n + (finalsList derived).length - 1 := by
                simp [combineMax] at hlr
                exact hlr
              refine ⟨?_, ?_, ?_, ?_,
                new1 ++ [("First" ++ name, f), ("Last" ++ name, lst)], ?_, ?_, ?_⟩
              · rw [← hlo, hf']
              · rw [← hn, hn1]; simp [finalsOf]
              · rw [← hhi, hl']; simp [finalsOf]
              · simpa [finalsOf] using hK
              · rw [← hts, hts1]; simp
              · simp only [finalsOf]
                exact hsub1.trans (List.sublist_append_left new1 _)
              · simp only [finalsOf, absCount, List.length_append, hlen1,
                  List.length_cons, List.length_nil]
                omega

theorem visitChildren_ok_spec (l : List NType) :
    ∀ (ts : List (String × Nat)) (n : Nat) (f? l? fr? lr? : Option Nat)
      (ts' : List (String × Nat)) (n' : Nat),
    visitChildren l ts n f? l? = .ok ((fr?, lr?), (ts', n')) →
    n' = n + (finalsList l).length ∧
    (∀ c ∈ l, 1 ≤ (finalsOf c).length) ∧
    (l = [] → fr? = f? ∧ lr? = l?) ∧
    (l ≠ [] → 1 ≤ (finalsList l).length ∧ fr? = some (combineMin f? n) ∧
      lr? = some (combineMax l? (n + (finalsList l).length - 1))) ∧
    (∃ new, ts' = ts ++ new ∧
      ((finalsList l).zip (List.range' n (finalsList l).length)).Sublist new ∧
      new.length = (finalsList l).length + 2 * absCountList l) ∧
    (∀ i (hil : i < l.length), ∃ out,
      visit (l.get ⟨i, hil⟩) [] (n + prefFinals l i) =
        .ok ((n + prefFinals l i, n + prefFinals l (i + 1) - 1),
             (out, n + prefFinals l (i + 1)))) := by
  match l with
  | [] =>
    intro ts n f? l? fr? lr? ts' n' h
    simp only [visitChildren, Except.ok.injEq, Prod.mk.injEq] at h
    obtain ⟨⟨h1, h2⟩, h3, h4⟩ := h
    refine ⟨by simp [finalsList, ← h4], by simp, fun _ => ⟨h1.symm, h2.symm⟩,
      fun hne => absurd rfl hne, ⟨[], by simp [← h3], by simp [finalsList],
      by simp [finalsList, absCountList]⟩, ?_⟩
    intro i hil
    simp at hil
  | c :: cs =>
    intro ts n f? l? fr? lr? ts' n' h
    rw [visitChildren] at h
    cases h0 : visit c ts n with
    | error e => rw [h0] at h; cases h
    | ok r =>
      rw [h0] at h
      obtain ⟨⟨low, high⟩, ts1, n1⟩ := r
      obtain ⟨hlow, hn1, hhigh, hK1, new1, hts1, hsub1, hlen1⟩ :=
        visit_ok_spec c ts n low high ts1 n1 h0
      obtain ⟨hn', hall, hnil, hne, ⟨new2, hts2, hsub2, hlen2⟩, hchild⟩ :=
        visitChildren_ok_spec cs ts1 n1 (some (combineMin f? low))
          (some (combineMax l? high)) fr? lr? ts' n' h
      rw [hlow] at hnil hne
      have hKdef : finalsList (c :: cs) = finalsOf c ++ finalsList cs := by
        simp [finalsList]
      constructor
      · rw [hn', hn1, hKdef, List.length_append]; omega
      constructor
      · intro x hx
        rcases List.mem_cons.mp hx with hx | hx
        · subst hx; exact hK1
        · exact hall x hx
      constructor
      · intro habs; cases habs
      constructor
      · intro _
        refine ⟨?_, ?_, ?_⟩
        · rw [hKdef, List.length_append]; omega
        · by_cases hcs : cs = []
          · subst hcs
            rw [(hnil rfl).1]
          · rw [(hne hcs).2.1, hn1]
            congr 1
            exact combineMin_chain f? n (n + (finalsOf c).length) (by omega)
        · by_cases hcs : cs = []
          · subst hcs
            rw [(hnil rfl).2, hhigh]
            have e : (finalsList [c]).length = (finalsOf c).length := by
              simp [finalsList]
            rw [e]
          · rw [(hne hcs).2.2, hhigh, hn1]
            rw [hKdef, List.length_append]
            have e : n + ((finalsOf c).length + (finalsList cs).length) - 1 =
                n + (finalsOf c).length + (finalsList cs).length - 1 := by omega
            rw [e]
            congr 1
            exact combineMax_chain l? _ _ (by omega)
      constructor
      · refine ⟨new1 ++ new2, ?_, ?_, ?_⟩
        · rw [hts2, hts1]; simp
        · rw [hKdef]
          have hlzip : ((finalsOf c ++ finalsList cs).zip
              (List.range' n (finalsOf c ++ finalsList cs).length)) =
              (finalsOf c).zip (List.range' n (finalsOf c).length) ++
              (finalsList cs).zip
                (List.range' (n + (finalsOf c).length) (finalsList cs).length) := by
            rw [List.length_append,
              range'_split n (finalsOf c).length (finalsList cs).length]
            exact List.zip_append (by simp)
          rw [hlzip]
          rw [hn1] at hsub2
          exact List.Sublist.append hsub1 hsub2
        · rw [hKdef]
          simp only [List.length_append, hlen1, hlen2, absCountList]
          omega
      · intro i hil
        cases i with
        | zero =>
          have hp0 : prefFinals (c :: cs) 0 = 0 := prefFinals_zero _
          have hp1 : prefFinals (c :: cs) 1 = (finalsOf c).length := by
            simp [prefFinals_cons, prefFinals_zero]
          rw [hp0, hp1]
          have hv := visit_append c ts n
          rw [h0] at hv
          cases hv2 : visit c [] n with
          | error e => rw [hv2] at hv; cases hv
          | ok rr =>
            rw [hv2] at hv
            obtain ⟨⟨a, b⟩, out0, m0⟩ := rr
            simp only [Except.map, Except.ok.injEq, Prod.mk.injEq] at hv
            obtain ⟨⟨ha, hb⟩, hout, hm⟩ := hv
            refine ⟨out0, ?_⟩
            simp only [List.get, Nat.add_zero]
            rw [hv2, ← ha, ← hb, ← hm, hlow, hhigh, hn1]
        | succ i' =>
          have hil' : i' < cs.length := by simpa using hil
          obtain ⟨out, hout⟩ := hchild i' hil'
          refine ⟨out, ?_⟩
          have hget : (c :: cs).get ⟨i' + 1, hil⟩ = cs.get ⟨i', hil'⟩ := rfl
          rw [hget]
          rw [prefFinals_cons, prefFinals_cons]
          rw [hn1] at hout
          have e1 : n + ((finalsOf c).length + prefFinals cs i') =
              n + (finalsOf c).length + prefFinals cs i' := by omega
          have e2 : n + ((finalsOf c).length + prefFinals cs (i' + 1)) =
              n + (finalsOf c).length + prefFinals cs (i' + 1) := by omega
          rw [e1, e2]
          exact hout

end

mutual

theorem visit_error_iff (t : NType) : ∀ (ts : List (String × Nat)) (n : Nat),
    (∃ e, visit t ts n = .error e) ↔ hasEmptyAbstract t = true := by
  match t with
  | .mk name cppName final members derived =>
    intro ts n
    by_cases hf : final = true
    · subst hf
      simp [visit, hasEmptyAbstract]
    · replace hf : final = false := by simpa using hf
      subst hf
      rw [visit]
      simp only [Bool.false_eq_true, if_false, hasEmptyAbstract]
      constructor
      · rintro ⟨e, he⟩
        cases h0 : visitChildren derived ts n none none with
        | error e' =>
          have : ∃ e, visitChildren derived ts n none none = .error e := ⟨e', h0⟩
          rw [visitChildren_error_iff derived ts n none none] at this
          simp [this]
        | ok r =>
          rw [h0] at he
          obtain ⟨⟨first?, last?⟩, ts1, n1⟩ := r
          by_cases hd : derived = []
          · simp [hd]
          · obtain ⟨_, _, _, hne, _, _⟩ :=
              visitChildren_ok_spec derived ts n none none first? last? ts1 n1 h0
            obtain ⟨_, hfr, hlr⟩ := hne hd
            rw [hfr, hlr] at he
            simp at he
      · intro hrhs
        by_cases hd : derived.isEmpty = true
        · have hd' : derived = [] := by
            cases derived with
            | nil => rfl
            | cons a as => simp [List.isEmpty] at hd
          subst hd'
          refine ⟨.emptyHierarchy name, ?_⟩
          rw [visitChildren]
        · have hlist : hasEmptyAbstractList derived = true := by
            rcases Bool.or_eq_true_iff.mp hrhs with h | h
            · exact absurd h hd
            · exact h
          obtain ⟨e, he⟩ :=
            (visitChildren_error_iff derived ts n none none).mpr hlist
          refine ⟨e, ?_⟩
          rw [he]

theorem visitChildren_error_iff (l : List NType) :
    ∀ (ts : List (String × Nat)) (n : Nat) (f? l? : Option Nat),
    (∃ e, visitChildren l ts n f? l? = .error e) ↔
      hasEmptyAbstractList l = true := by
  match l with
  | [] =>
    intro ts n f? l?
    simp [visitChildren, hasEmptyAbstractList]
  | c :: cs =>
    intro ts n f? l?
    rw [visitChildren]
    simp only [hasEmptyAbstractList]
    cases h0 : visit c ts n with
    | error e =>
      have : ∃ e, visit c ts n = .error e := ⟨e, h0⟩
      rw [visit_error_iff c ts n] at this
      simp [this]
    | ok r =>
      obtain ⟨⟨low, high⟩, ts1, n1⟩ := r
      have hcok : hasEmptyAbstract c = false := by
        by_contra hcon
        have hc : hasEmptyAbstract c = true := by
          cases hx : hasEmptyAbstract c
          · exact absurd hx hcon
          · rfl
        obtain ⟨e, he⟩ := (visit_error_iff c ts n).mpr hc
        rw [he] at h0
        cases h0
      rw [visitChildren_error_iff cs ts1 n1 (some (combineMin f? low))
        (some (combineMax l? high))]
      simp [hcok]

end

mutual

theorem visit_error_named (t : NType) :
    ∀ (ts : List (String × Nat)) (n : Nat) (nm : String),
    visit t ts n = .error (.emptyHierarchy nm) → emptyAbstractNamed t nm = true := by
  match t with
  | .mk name cppName final members derived =>
    intro ts n nm h
    by_cases hf : final = true
    · subst hf
      simp [visit] at h
    · replace hf : final = false := by simpa using hf
      subst hf
      rw [visit] at h
      simp only [Bool.false_eq_true, if_false] at h
      cases h0 : visitChildren derived ts n none none with
      | error e =>
        rw [h0] at h
        cases h
        have := visitChildrenErrorNamed derived ts n none none nm h0
        simp [emptyAbstractNamed, this]
      | ok r =>
        rw [h0] at h
        obtain ⟨⟨first?, last?⟩, ts1, n1⟩ := r
        by_cases hd : derived = []
        · subst hd
          simp only [visitChildren, Except.ok.injEq, Prod.mk.injEq] at h0
          obtain ⟨⟨hfst, hlst⟩, _, _⟩ := h0
          rw [← hfst, ← hlst] at h
          simp at h
          cases h
          simp [emptyAbstractNamed, emptyAbstractNamedList, List.isEmpty]
        · obtain ⟨_, _, _, hne, _, _⟩ :=
            visitChildren_ok_spec derived ts n none none first? last? ts1 n1 h0
          obtain ⟨_, hfr, hlr⟩ := hne hd
          rw [hfr, hlr] at h
          simp at h

theorem visitChildrenErrorNamed (l : List NType) :
    ∀ (ts : List (String × Nat)) (n : Nat) (f? l? : Option Nat) (nm : String),
    visitChildren l ts n f? l? = .error (.emptyHierarchy nm) →
      emptyAbstractNamedList l nm = true := by
  match l with
  | [] =>
    intro ts n f? l? nm h
    simp [visitChildren] at h
  | c :: cs =>
    intro ts n f? l? nm h
    rw [visitChildren] at h
    cases h0 : visit c ts n with
    | error e =>
      rw [h0] at h
      cases h
      have := visit_error_named c ts n nm h0
      simp [emptyAbstractNamedList, this]
    | ok r =>
      rw [h0] at h
      obtain ⟨⟨low, high⟩, ts1, n1⟩ := r
      have := visitChildrenErrorNamed cs ts1 n1 (some (combineMin f? low))
        (some (combineMax l? high)) nm h
      simp [emptyAbstractNamedList, this]

end

mutual

theorem visitScripts_eq (t : NType) : ∀ (ts : List (String × Nat)) (n : Nat),
    visitScripts t ts n = visit t ts n := by
  match t with
  | .mk name cppName final members derived =>
    intro ts n
    rw [visitScripts, visit, visitChildrenScripts_eq derived ts n none none]

theorem visitChildrenScripts_eq (l : List NType) :
    ∀ (ts : List (String × Nat)) (n : Nat) (f? l? : Option Nat),
    visitChildrenScripts l ts n f? l? = visitChildren l ts n f? l? := by
  match l with
  | [] => intro ts n f? l?; rw [visitChildrenScripts, visitChildren]
  | c :: cs =>
    intro ts n f? l?
    rw [visitChildrenScripts, visitChildren, visitScripts_eq c ts n]
    cases h0 : visit c ts n with
    | error e => rfl
    | ok r =>
      obtain ⟨⟨low, high⟩, ts1, n1⟩ := r
      exact visitChildrenScripts_eq cs ts1 n1 _ _

end

theorem collectMembers_spec (ms : List SMember) :
    ∀ (seen : List String) (acc : List SMember),
    ∃ new, collectMembers ms seen acc = (seen ++ new.map SMember.cppType, acc ++ new) ∧
      (∀ m ∈ new, m.isChild = true) ∧
      (new.map SMember.cppType).Nodup ∧
      (∀ k ∈ new.map SMember.cppType, k ∉ seen) ∧
      (∀ k, k ∈ seen ++ new.map SMember.cppType ↔
        k ∈ seen ∨ k ∈ (ms.filter (fun m => m.isChild)).map SMember.cppType) := by
  induction ms with
  | nil =>
    intro seen acc
    refine ⟨[], ?_, ?_, ?_, ?_, ?_⟩ <;> simp [collectMembers]
  | cons m ms ih =>
    intro seen acc
    by_cases hcond : (!(seen.contains m.cppType) && m.isChild) = true
    · have hsplit := hcond
      simp only [Bool.and_eq_true, Bool.not_eq_true'] at hsplit
      obtain ⟨hnc, hch⟩ := hsplit
      have hnotin_seen : m.cppType ∉ seen := by
        intro hmem
        have : seen.contains m.cppType = true := by simpa using hmem
        rw [this] at hnc
        cases hnc
      obtain ⟨new', heq, hchild, hnodup, hnotin, hiff⟩ :=
        ih (seen ++ [m.cppType]) (acc ++ [m])
      refine ⟨m :: new', ?_, ?_, ?_, ?_, ?_⟩
      · rw [collectMembers, if_pos hcond, heq]
        simp
      · intro x hx
        rcases List.mem_cons.mp hx with hx | hx
        · subst hx; exact hch
        · exact hchild x hx
      · simp only [List.map_cons, List.nodup_cons]
        constructor
        · intro hmem
          exact absurd (by simp) (hnotin m.cppType hmem)
        · exact hnodup
      · intro k hk
        simp only [List.map_cons, List.mem_cons] at hk
        rcases hk with hk | hk
        · subst hk; exact hnotin_seen
        · intro hks
          exact hnotin k hk (by simp [hks])
      · intro k
        have h2 := hiff k
        simp only [List.mem_append, List.mem_singleton] at h2
        simp only [List.map_cons, List.mem_append, List.mem_cons,
          List.filter_cons, hch, if_true, List.map_cons]
        constructor
        · rintro (hs | hs | hs)
          · exact Or.inl hs
          · exact Or.inr (Or.inl hs)
          · rcases (h2.mp (Or.inr hs)) with (hs' | hs') | hs'
            · exact Or.inl hs'
            · exact Or.inr (Or.inl hs')
            · exact Or.inr (Or.inr hs')
        · rintro (hs | hs | hs)
          · exact Or.inl hs
          · exact Or.inr (Or.inl hs)
          · rcases h2.mpr (Or.inr hs) with (hs' | hs') | hs'
            · exact Or.inl hs'
            · exact Or.inr (Or.inl hs')
            · exact Or.inr (Or.inr hs')
    · obtain ⟨new', heq, hchild, hnodup, hnotin, hiff⟩ := ih seen acc
      refine ⟨new', ?_, hchild, hnodup, hnotin, ?_⟩
      · rw [collectMembers, if_neg hcond, heq]
      · intro k
        have h2 := hiff k
        simp only [Bool.and_eq_true, Bool.not_eq_true', not_and] at hcond
        by_cases hch : m.isChild = true
        · have hcontains : seen.contains m.cppType = true := by
            by_cases hc : seen.contains m.cppType = true
            · exact hc
            · have : seen.contains m.cppType = false := by
                cases hx : seen.contains m.cppType
                · rfl
                · exact absurd hx hc
              exact absurd hch (hcond this)
          have hkseen : m.cppType ∈ seen := by simpa using hcontains
          simp only [List.filter_cons, hch, if_true, List.map_cons, List.mem_cons]
          rw [h2]
          constructor
          · rintro (hs | hs)
            · exact Or.inl hs
            · exact Or.inr (Or.inr hs)
          · rintro (hs | hs | hs)
            · exact Or.inl hs
            · subst hs; exact Or.inl hkseen
            · exact Or.inr hs
        · have hch' : m.isChild = false := by
            cases hx : m.isChild
            · rfl
            · exact absurd hx hch
          simp only [List.filter_cons, hch', Bool.false_eq_true, if_false]
          exact h2

theorem collectSlots_spec (ls : List NType) :
    ∀ (seen : List String) (acc : List SMember),
    ∃ new, collectSlots ls seen acc = (seen ++ new.map SMember.cppType, acc ++ new) ∧
      (∀ m ∈ new, m.isChild = true) ∧
      (new.map SMember.cppType).Nodup ∧
      (∀ k ∈ new.map SMember.cppType, k ∉ seen) ∧
      (∀ k, k ∈ seen ++ new.map SMember.cppType ↔
        k ∈ seen ∨
          k ∈ ((ls.flatMap NType.members).filter (fun m => m.isChild)).map
            SMember.cppType) := by
  induction ls with
  | nil =>
    intro seen acc
    refine ⟨[], ?_, ?_, ?_, ?_, ?_⟩ <;> simp [collectSlots]
  | cons t ls ih =>
    intro seen acc
    obtain ⟨new1, heq1, hchild1, hnodup1, hnotin1, hiff1⟩ :=
      collectMembers_spec t.members seen acc
    obtain ⟨new2, heq2, hchild2, hnodup2, hnotin2, hiff2⟩ :=
      ih (seen ++ new1.map SMember.cppType) (acc ++ new1)
    refine ⟨new1 ++ new2, ?_, ?_, ?_, ?_, ?_⟩
    · rw [collectSlots, heq1]
      show collectSlots ls (seen ++ new1.map SMember.cppType) (acc ++ new1) = _
      rw [heq2]
      simp
    · intro x hx
      rcases List.mem_append.mp hx with hx | hx
      · exact hchild1 x hx
      · exact hchild2 x hx
    · rw [List.map_append]
      rw [List.nodup_append]
      refine ⟨hnodup1, hnodup2, ?_⟩
      intro k hk1 hk2
      exact hnotin2 k hk2 (by simp [hk1])
    · intro k hk
      rw [List.map_append] at hk
      rcases List.mem_append.mp hk with hk' | hk'
      · exact hnotin1 k hk'
      · intro hks
        exact hnotin2 k hk' (by simp [hks])
    · intro k
      have h1 := hiff1 k
      have h2 := hiff2 k
      simp only [List.mem_append] at h1 h2
      simp only [List.flatMap_cons, List.filter_append, List.map_append,
        List.mem_append]
      rw [← or_assoc, h2, h1, or_assoc]

theorem slotTypes_key_facts (t : NType) :
    ((slotTypes t).map SMember.cppType).Nodup ∧
    ((slotTypes t).map SMember.cppType).Pairwise (fun a b => a ≤ b) ∧
    (∀ k, k ∈ (slotTypes t).map SMember.cppType ↔ k ∈ childSlotKeys t) ∧
    (∀ m ∈ slotTypes t, m.isChild = true) := by
  obtain ⟨new, heq, hchild, hnodup, hnotin, hiff⟩ :=
    collectSlots_spec (walkTypes t) [] []
  have hacc : (collectSlots (walkTypes t) [] []).2 = new := by
    rw [heq]
    simp
  have hperm : (slotTypes t).Perm new := by
    rw [slotTypes, hacc]
    exact List.mergeSort_perm new _
  have hkeysperm := hperm.map SMember.cppType
  refine ⟨?_, ?_, ?_, ?_⟩
  · exact hkeysperm.nodup_iff.mpr hnodup
  · have hs := @List.sorted_mergeSort SMember
      (fun a b : SMember => a.cppType ≤ b.cppType)
      (fun a b c hab hbc => by
        simp only [decide_eq_true_eq] at hab hbc ⊢
        exact le_trans hab hbc)
      (fun a b => by
        simp only [Bool.or_eq_true, decide_eq_true_eq]
        exact le_total a.cppType b.cppType)
      new
    rw [slotTypes, hacc, List.pairwise_map]
    exact hs.imp (fun h => by simpa using h)
  · intro k
    rw [hkeysperm.mem_iff]
    have h := hiff k
    simp only [List.nil_append, List.mem_nil_iff, false_or] at h
    rw [h, childSlotKeys]
  · intro m hm
    exact hchild m (hperm.mem_iff.mp hm)

/-! ### Helper lemmas about the registry -/

theorem addAll_spec (ds : List TypeDef) : ∀ (acc : List TypeDef),
    ((acc.map TypeDef.name).Nodup) →
    ((((acc ++ ds).map TypeDef.name).Nodup → addAll acc ds = .ok (acc ++ ds)) ∧
     (¬ (((acc ++ ds).map TypeDef.name).Nodup) →
       ∃ s, addAll acc ds = .error (.duplicateName s) ∧
         2 ≤ ((acc ++ ds).map TypeDef.name).count s)) := by
  induction ds with
  | nil =>
    intro acc hacc
    constructor
    · intro _
      simp [addAll]
    · intro hnot
      simp at hnot
      exact absurd hacc hnot
  | cons d ds ih =>
    intro acc hacc
    by_cases hdup : (acc.any (fun e => e.name == d.name)) = true
    · have hmem : d.name ∈ acc.map TypeDef.name := by
        simp only [List.any_eq_true] at hdup
        obtain ⟨e, he, hbe⟩ := hdup
        simp only [beq_iff_eq] at hbe
        exact List.mem_map.mpr ⟨e, he, hbe⟩
      constructor
      · intro hnod
        exfalso
        rw [List.map_append] at hnod
        rcases List.nodup_append.mp hnod with ⟨_, _, hdisj⟩
        exact hdisj hmem (by simp)
      · intro _
        refine ⟨d.name, ?_, ?_⟩
        · rw [addAll, if_pos hdup]
        · rw [List.map_append, List.count_append]
          have h1 : 1 ≤ (acc.map TypeDef.name).count d.name :=
            List.count_pos_iff.mpr hmem
          have h2 : 1 ≤ ((d :: ds).map TypeDef.name).count d.name := by
            simp [List.count_cons]
          omega
    · have hnotmem : d.name ∉ acc.map TypeDef.name := by
        intro hmem
        obtain ⟨e, he, hee⟩ := List.mem_map.mp hmem
        have : acc.any (fun e => e.name == d.name) = true := by
          simp only [List.any_eq_true]
          exact ⟨e, he, by simp [hee]⟩
        exact absurd this hdup
      have hacc' : ((acc ++ [d]).map TypeDef.name).Nodup := by
        rw [List.map_append, List.nodup_append]
        refine ⟨hacc, by simp, ?_⟩
        intro s hs hsd
        simp at hsd
        subst hsd
        exact absurd hs hnotmem
      have hstep : addAll acc (d :: ds) = addAll (acc ++ [d]) ds := by
        rw [addAll, if_neg hdup]
      have hre : (acc ++ [d]) ++ ds = acc ++ d :: ds := by simp
      obtain ⟨hok, herr⟩ := ih (acc ++ [d]) hacc'
      rw [hre] at hok herr
      constructor
      · intro hnod
        rw [hstep, hok hnod]
      · intro hnot
        obtain ⟨s, hs1, hs2⟩ := herr hnot
        exact ⟨s, by rw [hstep, hs1], hs2⟩

theorem resolveRef_ok (reg : List TypeDef) (r r' : Ref)
    (h : resolveRef reg r = .ok r') : refResolvedTo reg r r' := by
  match r with
  | none =>
    simp only [resolveRef, Except.ok.injEq] at h
    simp [refResolvedTo, ← h]
  | some (.resolved s) =>
    simp only [resolveRef, Except.ok.injEq] at h
    simp [refResolvedTo, ← h]
  | some (.name s) =>
    rw [resolveRef] at h
    cases h0 : getDef reg s with
    | error e => rw [h0] at h; cases h
    | ok d =>
      rw [h0] at h
      simp only [Except.ok.injEq] at h
      rw [getDef] at h0
      cases h1 : reg.find? (fun d => d.name == s) with
      | none => rw [h1] at h0; cases h0
      | some d0 =>
        rw [h1] at h0
        simp only [Except.ok.injEq] at h0
        have hname : d.name = s := by
          have hps := List.find?_some h1
          simp only [beq_iff_eq] at hps
          rw [← h0]
          exact hps
        refine ⟨?_, ?_⟩
        · rw [← h, hname]
        · rw [h1]; rfl

theorem resolveRef_error (reg : List TypeDef) (r : Ref) (e : RegError)
    (h : resolveRef reg r = .error e) :
    ∃ s, r = some (.name s) ∧ e = .unknownType s ∧
      reg.find? (fun d => d.name == s) = none := by
  match r with
  | none => simp [resolveRef] at h
  | some (.resolved s) => simp [resolveRef] at h
  | some (.name s) =>
    rw [resolveRef] at h
    cases h0 : getDef reg s with
    | ok d => rw [h0] at h; cases h
    | error e' =>
      rw [h0] at h
      cases h
      rw [getDef] at h0
      cases h1 : reg.find? (fun d => d.name == s) with
      | some d0 => rw [h1] at h0; cases h0
      | none =>
        rw [h1] at h0
        cases h0
        exact ⟨s, rfl, rfl, h1⟩

theorem resolveMember_ok (reg : List TypeDef) (m m' : MemberDef)
    (h : resolveMember reg m = .ok m') : memberResolvedTo reg m m' := by
  match m with
  | .data nm dt req =>
    simp only [resolveMember, Except.ok.injEq] at h
    simp [memberResolvedTo, ← h]
  | .dataList nm et req =>
    simp only [resolveMember, Except.ok.injEq] at h
    simp [memberResolvedTo, ← h]
  | .node nm r req =>
    rw [resolveMember] at h
    cases h0 : resolveRef reg r with
    | error e => rw [h0] at h; cases h
    | ok r2 =>
      rw [h0] at h
      simp only [Except.ok.injEq] at h
      exact ⟨r2, h.symm, resolveRef_ok reg r r2 h0⟩
  | .nodeList nm r req =>
    rw [resolveMember] at h
    cases h0 : resolveRef reg r with
    | error e => rw [h0] at h; cases h
    | ok r2 =>
      rw [h0] at h
      simp only [Except.ok.injEq] at h
      exact ⟨r2, h.symm, resolveRef_ok reg r r2 h0⟩

theorem resolveMember_error (reg : List TypeDef) (m : MemberDef) (e : RegError)
    (h : resolveMember reg m = .error e) :
    ∃ s, e = .unknownType s ∧ reg.find? (fun d => d.name == s) = none ∧
      s ∈ memberRefStrings m := by
  match m with
  | .data nm dt req => simp [resolveMember] at h
  | .dataList nm et req => simp [resolveMember] at h
  | .node nm r req =>
    rw [resolveMember] at h
    cases h0 : resolveRef reg r with
    | ok r2 => rw [h0] at h; cases h
    | error e' =>
      rw [h0] at h
      cases h
      obtain ⟨s, hr, he, hf⟩ := resolveRef_error reg r e h0
      exact ⟨s, he, hf, by simp [memberRefStrings, hr, refStrings]⟩
  | .nodeList nm r req =>
    rw [resolveMember] at h
    cases h0 : resolveRef reg r with
    | ok r2 => rw [h0] at h; cases h
    | error e' =>
      rw [h0] at h
      cases h
      obtain ⟨s, hr, he, hf⟩ := resolveRef_error reg r e h0
      exact ⟨s, he, hf, by simp [memberRefStrings, hr, refStrings]⟩

theorem mapE_ok_forall₂ {α β : Type} {ε : Type} {R : α → β → Prop}
    (f : α → Except ε β) (hf : ∀ a b, f a = .ok b → R a b) :
    ∀ (l : List α) (l' : List β), mapE f l = .ok l' → List.Forall₂ R l l' := by
  intro l
  induction l with
  | nil =>
    intro l' h
    simp only [mapE, Except.ok.injEq] at h
    rw [← h]
    exact List.Forall₂.nil
  | cons a as ih =>
    intro l' h
    rw [mapE] at h
    cases h0 : f a with
    | error e => rw [h0] at h; cases h
    | ok b =>
      rw [h0] at h
      cases h1 : mapE f as with
      | error e => rw [h1] at h; cases h
      | ok bs =>
        rw [h1] at h
        simp only [Except.ok.injEq] at h
        rw [← h]
        exact List.Forall₂.cons (hf a b h0) (ih bs h1)

theorem mapE_error {α β : Type} {ε : Type}
    (f : α → Except ε β) :
    ∀ (l : List α) (e : ε), mapE f l = .error e → ∃ a ∈ l, f a = .error e := by
  intro l
  induction l with
  | nil => intro e h; simp [mapE] at h
  | cons a as ih =>
    intro e h
    rw [mapE] at h
    cases h0 : f a with
    | error e' =>
      rw [h0] at h
      cases h
      exact ⟨a, by simp, h0⟩
    | ok b =>
      rw [h0] at h
      cases h1 : mapE f as with
      | error e' =>
        rw [h1] at h
        cases h
        obtain ⟨x, hx, hfx⟩ := ih e h1
        exact ⟨x, by simp [hx], hfx⟩
      | ok bs => rw [h1] at h; cases h

theorem resolveDef_ok (reg : List TypeDef) (d d' : TypeDef)
    (h : resolveDef reg d = .ok d') : defResolvedTo reg d d' := by
  rw [resolveDef] at h
  cases h0 : resolveRef reg d.base with
  | error e => rw [h0] at h; cases h
  | ok b =>
    rw [h0] at h
    dsimp only at h
    by_cases hn : d.isNode = true
    · rw [if_pos hn] at h
      cases h1 : mapE (resolveMember reg) d.members with
      | error e => rw [h1] at h; cases h
      | ok ms =>
        rw [h1] at h
        simp only [Except.ok.injEq] at h
        refine ⟨by rw [← h], by rw [← h], by rw [← h], by rw [← h], ?_, ?_, ?_⟩
        · rw [← h]
          exact resolveRef_ok reg d.base b h0
        · intro _
          rw [← h]
          exact mapE_ok_forall₂ (resolveMember reg)
            (fun m m' hm => resolveMember_ok reg m m' hm) d.members ms h1
        · intro hfalse
          rw [hn] at hfalse
          cases hfalse
    · rw [if_neg hn] at h
      simp only [Except.ok.injEq] at h
      refine ⟨by rw [← h], by rw [← h], by rw [← h], by rw [← h], ?_, ?_, ?_⟩
      · rw [← h]
        exact resolveRef_ok reg d.base b h0
      · intro htrue
        exact absurd htrue hn
      · intro _
        rw [← h]

theorem resolveDef_error (reg : List TypeDef) (d : TypeDef) (e : RegError)
    (h : resolveDef reg d = .error e) :
    ∃ s, e = .unknownType s ∧ reg.find? (fun x => x.name == s) = none ∧
      s ∈ defRefStrings d := by
  rw [resolveDef] at h
  cases h0 : resolveRef reg d.base with
  | error e' =>
    rw [h0] at h
    cases h
    obtain ⟨s, hr, he, hf⟩ := resolveRef_error reg d.base e h0
    refine ⟨s, he, hf, ?_⟩
    rw [defRefStrings]
    simp [hr, refStrings]
  | ok b =>
    rw [h0] at h
    dsimp only at h
    by_cases hn : d.isNode = true
    · rw [if_pos hn] at h
      cases h1 : mapE (resolveMember reg) d.members with
      | ok ms => rw [h1] at h; cases h
      | error e' =>
        rw [h1] at h
        cases h
        obtain ⟨m, hm, hme⟩ := mapE_error (resolveMember reg) d.members e h1
        obtain ⟨s, he, hf, hs⟩ := resolveMember_error reg m e hme
        refine ⟨s, he, hf, ?_⟩
        rw [defRefStrings, if_pos hn]
        exact List.mem_append.mpr (Or.inr (List.mem_flatMap.mpr ⟨m, hm, hs⟩))
    · rw [if_neg hn] at h
      cases h

theorem resolveReferences_ok_rel (reg reg' : List TypeDef)
    (h : resolveReferences reg = .ok reg') :
    List.Forall₂ (defResolvedTo reg) reg reg' :=
  mapE_ok_forall₂ (resolveDef reg)
    (fun d d' hd => resolveDef_ok reg d d' hd) reg reg' h

theorem resolveReferences_error (reg : List TypeDef) (e : RegError)
    (h : resolveReferences reg = .error e) :
    ∃ s, e = .unknownType s ∧ reg.find? (fun x => x.name == s) = none ∧
      s ∈ regRefStrings reg := by
  obtain ⟨d, hd, hde⟩ := mapE_error (resolveDef reg) reg e h
  obtain ⟨s, he, hf, hs⟩ := resolveDef_error reg d e hde
  exact ⟨s, he, hf, List.mem_flatMap.mpr ⟨d, hd, hs⟩⟩

theorem forall₂_mem_left {α β : Type} {R : α → β → Prop} :
    ∀ {l₁ : List α} {l₂ : List β}, List.Forall₂ R l₁ l₂ →
    ∀ a ∈ l₁, ∃ b ∈ l₂, R a b := by
  intro l₁ l₂ h
  induction h with
  | nil => intro a ha; cases ha
  | cons hR hrest ih =>
    intro a ha
    rcases List.mem_cons.mp ha with ha | ha
    · subst ha
      exact ⟨_, by simp, hR⟩
    · obtain ⟨b, hb, hRb⟩ := ih a ha
      exact ⟨b, by simp [hb], hRb⟩

theorem defResolvedTo_strings (reg : List TypeDef) (d d' : TypeDef)
    (h : defResolvedTo reg d d') :
    ∀ s ∈ defRefStrings d, (reg.find? (fun x => x.name == s)).isSome = true := by
  intro s hs
  rw [defRefStrings] at hs
  rcases List.mem_append.mp hs with hs | hs
  · match hb : d.base with
    | none => rw [hb] at hs; simp [refStrings] at hs
    | some (.resolved t) => rw [hb] at hs; simp [refStrings] at hs
    | some (.name t) =>
      rw [hb] at hs
      simp only [refStrings, List.mem_singleton] at hs
      subst hs
      have hres := h.2.2.2.2.1
      rw [hb] at hres
      exact hres.2
  · by_cases hn : d.isNode = true
    · rw [if_pos hn] at hs
      obtain ⟨m, hm, hms⟩ := List.mem_flatMap.mp hs
      obtain ⟨m', hm', hR⟩ := forall₂_mem_left (h.2.2.2.2.2.1 hn) m hm
      match m, hR, hms with
      | .data nm dt req, hR, hms => simp [memberRefStrings] at hms
      | .dataList nm et req, hR, hms => simp [memberRefStrings] at hms
      | .node nm r req, hR, hms =>
        obtain ⟨r', hr', hrr⟩ := hR
        match r, hrr, hms with
        | none, hrr, hms => simp [memberRefStrings, refStrings] at hms
        | some (.resolved t), hrr, hms =>
          simp [memberRefStrings, refStrings] at hms
        | some (.name t), hrr, hms =>
          simp only [memberRefStrings, refStrings, List.mem_singleton] at hms
          subst hms
          exact hrr.2
      | .nodeList nm r req, hR, hms =>
        obtain ⟨r', hr', hrr⟩ := hR
        match r, hrr, hms with
        | none, hrr, hms => simp [memberRefStrings, refStrings] at hms
        | some (.resolved t), hrr, hms =>
          simp [memberRefStrings, refStrings] at hms
        | some (.name t), hrr, hms =>
          simp only [memberRefStrings, refStrings, List.mem_singleton] at hms
          subst hms
          exact hrr.2
    · rw [if_neg hn] at hs
      cases hs

theorem find?_profile_of_rel (reg ds ds' : List TypeDef)
    (h : List.Forall₂ (defResolvedTo reg) ds ds') :
    ∀ s, ((ds'.find? (fun e => e.name == s)).map (fun e => (e.name, e.final))) =
         ((ds.find? (fun e => e.name == s)).map (fun e => (e.name, e.final))) := by
  induction h with
  | nil => intro s; rfl
  | @cons d d' l l' hR hrest ih =>
    intro s
    have hname : d'.name = d.name := hR.1
    have hfinal : d'.final = d.final := hR.2.1
    by_cases hp : (d.name == s) = true
    · have hp' : (fun e : TypeDef => e.name == s) d' = true := by
        show (d'.name == s) = true
        rw [hname]; exact hp
      have hpd : (fun e : TypeDef => e.name == s) d = true := hp
      rw [@List.find?_cons_of_pos _ (fun e => e.name == s) d' l' hp',
        @List.find?_cons_of_pos _ (fun e => e.name == s) d l hpd]
      simp [Option.map, hname, hfinal]
    · have hp' : ¬ (fun e : TypeDef => e.name == s) d' = true := by
        show ¬ (d'.name == s) = true
        rw [hname]; exact hp
      have hpd : ¬ (fun e : TypeDef => e.name == s) d = true := hp
      rw [@List.find?_cons_of_neg _ (fun e => e.name == s) d' l' hp',
        @List.find?_cons_of_neg _ (fun e => e.name == s) d l hpd]
      exact ih s

theorem find?_appendDerived (reg : List TypeDef) (b c s : String) :
    (((appendDerived reg b c).find? (fun e => e.name == s)).map
      (fun e => (e.name, e.final))) =
    ((reg.find? (fun e => e.name == s)).map (fun e => (e.name, e.final))) := by
  induction reg with
  | nil => rfl
  | cons e es ih =>
    rw [appendDerived, List.map_cons]
    rw [appendDerived] at ih
    by_cases hb : (e.name == b) = true
    · rw [if_pos hb]
      by_cases hp : (e.name == s) = true
      · have h1 : (fun x : TypeDef => x.name == s)
            { e with derived := e.derived ++ [c] } = true := hp
        have h2 : (fun x : TypeDef => x.name == s) e = true := hp
        rw [@List.find?_cons_of_pos _ (fun x => x.name == s) _
            (List.map (fun e => if e.name == b
              then { e with derived := e.derived ++ [c] } else e) es) h1,
          @List.find?_cons_of_pos _ (fun x => x.name == s) e es h2]
        rfl
      · have h1 : ¬ (fun x : TypeDef => x.name == s)
            { e with derived := e.derived ++ [c] } = true := hp
        have h2 : ¬ (fun x : TypeDef => x.name == s) e = true := hp
        rw [@List.find?_cons_of_neg _ (fun x => x.name == s) _
            (List.map (fun e => if e.name == b
              then { e with derived := e.derived ++ [c] } else e) es) h1,
          @List.find?_cons_of_neg _ (fun x => x.name == s) e es h2]
        exact ih
    · rw [if_neg hb]
      by_cases hp : (e.name == s) = true
      · have h2 : (fun x : TypeDef => x.name == s) e = true := hp
        rw [@List.find?_cons_of_pos _ (fun x => x.name == s) e
            (List.map (fun e => if e.name == b
              then { e with derived := e.derived ++ [c] } else e) es) h2,
          @List.find?_cons_of_pos _ (fun x => x.name == s) e es h2]
      · have h2 : ¬ (fun x : TypeDef => x.name == s) e = true := hp
        rw [@List.find?_cons_of_neg _ (fun x => x.name == s) e
            (List.map (fun e => if e.name == b
              then { e with derived := e.derived ++ [c] } else e) es) h2,
          @List.find?_cons_of_neg _ (fun x => x.name == s) e es h2]
        exact ih

theorem bindLoop_final_error (iter : List TypeDef) :
    ∀ (reg reg₀ : List TypeDef),
    (∀ s, ((reg.find? (fun e => e.name == s)).map (fun e => (e.name, e.final))) =
          ((reg₀.find? (fun e => e.name == s)).map (fun e => (e.name, e.final)))) →
    (∀ d ∈ iter, ∀ b, d.base = some (.resolved b) →
      (reg₀.find? (fun e => e.name == b)).isSome = true) →
    (∃ d ∈ iter, ∃ b bd, d.base = some (.resolved b) ∧
      reg₀.find? (fun e => e.name == b) = some bd ∧ bd.final = true) →
    ∃ b bd, bindLoop reg iter = .error (.finalDerivation b) ∧
      (∃ d ∈ iter, d.base = some (.resolved b)) ∧
      reg₀.find? (fun e => e.name == b) = some bd ∧ bd.final = true := by
  induction iter with
  | nil =>
    intro reg reg₀ hprof hfound hex
    obtain ⟨d, hd, _⟩ := hex
    cases hd
  | cons d ds ih =>
    intro reg reg₀ hprof hfound hex
    match hb : d.base with
    | some (.resolved b) =>
      have hfnd := hfound d (by simp) b hb
      cases hfind : reg.find? (fun e => e.name == b) with
      | none =>
        exfalso
        have := hprof b
        rw [hfind] at this
        cases hfind0 : reg₀.find? (fun e => e.name == b) with
        | none => rw [hfind0] at hfnd; cases hfnd
        | some bd0 => rw [hfind0] at this; cases this
      | some bd =>
        have hprofb := hprof b
        rw [hfind] at hprofb
        cases hfind0 : reg₀.find? (fun e => e.name == b) with
        | none => rw [hfind0] at hfnd; cases hfnd
        | some bd0 =>
          rw [hfind0] at hprofb
          simp only [Option.map, Except.ok.injEq, Option.some.injEq,
            Prod.mk.injEq] at hprofb
          obtain ⟨hbn, hbf⟩ := hprofb
          by_cases hfin : bd.final = true
          · refine ⟨b, bd0, ?_, ⟨d, by simp, hb⟩, hfind0, by rw [← hbf]; exact hfin⟩
            rw [bindLoop, hb]
            dsimp only
            rw [hfind]
            dsimp only
            rw [if_pos hfin]
          · obtain ⟨dw, hdw, bw, bdw, hdwb, hdwf, hdwfin⟩ := hex
            have hdw' : dw ∈ ds := by
              rcases List.mem_cons.mp hdw with hdw | hdw
              · exfalso
                subst hdw
                rw [hb] at hdwb
                cases hdwb
                rw [hdwf] at hfind0
                cases hfind0
                rw [← hbf] at hdwfin
                exact hfin hdwfin
              · exact hdw
            have hprof' : ∀ s,
                (((appendDerived reg b d.name).find? (fun e => e.name == s)).map
                  (fun e => (e.name, e.final))) =
                ((reg₀.find? (fun e => e.name == s)).map
                  (fun e => (e.name, e.final))) := by
              intro s
              rw [find?_appendDerived]
              exact hprof s
            obtain ⟨b', bd', hrun, hmem, hf0, hff⟩ :=
              ih (appendDerived reg b d.name) reg₀ hprof'
                (fun x hx bx hbx => hfound x (by simp [hx]) bx hbx)
                ⟨dw, hdw', bw, bdw, hdwb, hdwf, hdwfin⟩
            refine ⟨b', bd', ?_, ?_, hf0, hff⟩
            · rw [bindLoop, hb]
              dsimp only
              rw [hfind]
              dsimp only
              rw [if_neg hfin]
              exact hrun
            · obtain ⟨x, hx, hxb⟩ := hmem
              exact ⟨x, by simp [hx], hxb⟩
    | some (.name b) =>
      obtain ⟨dw, hdw, bw, bdw, hdwb, hdwf, hdwfin⟩ := hex
      have hdw' : dw ∈ ds := by
        rcases List.mem_cons.mp hdw with hdw | hdw
        · exfalso
          subst hdw
          rw [hb] at hdwb
          cases hdwb
        · exact hdw
      obtain ⟨b', bd', hrun, hmem, hf0, hff⟩ :=
        ih reg reg₀ hprof (fun x hx bx hbx => hfound x (by simp [hx]) bx hbx)
          ⟨dw, hdw', bw, bdw, hdwb, hdwf, hdwfin⟩
      refine ⟨b', bd', ?_, ?_, hf0, hff⟩
      · rw [bindLoop, hb]
        dsimp only
        exact hrun
      · obtain ⟨x, hx, hxb⟩ := hmem
        exact ⟨x, by simp [hx], hxb⟩
    | none =>
      obtain ⟨dw, hdw, bw, bdw, hdwb, hdwf, hdwfin⟩ := hex
      have hdw' : dw ∈ ds := by
        rcases List.mem_cons.mp hdw with hdw | hdw
        · exfalso
          subst hdw
          rw [hb] at hdwb
          cases hdwb
        · exact hdw
      obtain ⟨b', bd', hrun, hmem, hf0, hff⟩ :=
        ih reg reg₀ hprof (fun x hx bx hbx => hfound x (by simp [hx]) bx hbx)
          ⟨dw, hdw', bw, bdw, hdwb, hdwf, hdwfin⟩
      refine ⟨b', bd', ?_, ?_, hf0, hff⟩
      · rw [bindLoop, hb]
        dsimp only
        exact hrun
      · obtain ⟨x, hx, hxb⟩ := hmem
        exact ⟨x, by simp [hx], hxb⟩

theorem forall₂_mem_right {α β : Type} {R : α → β → Prop} :
    ∀ {l₁ : List α} {l₂ : List β}, List.Forall₂ R l₁ l₂ →
    ∀ b ∈ l₂, ∃ a ∈ l₁, R a b := by
  intro l₁ l₂ h
  induction h with
  | nil => intro b hb; cases hb
  | cons hR hrest ih =>
    intro b hb
    rcases List.mem_cons.mp hb with hb | hb
    · subst hb
      exact ⟨_, by simp, hR⟩
    · obtain ⟨a, ha, hRa⟩ := ih b hb
      exact ⟨a, by simp [ha], hRa⟩

theorem prefFinals_lt (cs : List NType)
    (hall : ∀ c ∈ cs, 1 ≤ (finalsOf c).length) :
    ∀ i, i < cs.length → prefFinals cs i < prefFinals cs (i + 1) := by
  induction cs with
  | nil => intro i hi; cases hi
  | cons c cs ih =>
    intro i hi
    cases i with
    | zero =>
      have h1 : prefFinals (c :: cs) 1 = (finalsOf c).length := by
        simp [prefFinals_cons, prefFinals_zero]
      rw [prefFinals_zero, h1]
      exact hall c (by simp)
    | succ i' =>
      rw [prefFinals_cons, prefFinals_cons]
      have := ih (fun x hx => hall x (by simp [hx])) i' (by simpa using hi)
      omega

/-! ### Claim theorems -/

/-- C1: for every resolved hierarchy rooted at a node, `type_tags` assigns to
the concrete (final) types exactly the consecutive integers `1, 2, 3, ...` in
the order in which the traversal (children in `derived` order, which the
registry has name-sorted) encounters them: the pairs
`(name_i, i)` for `i = 1..k` occur, in order, among the emitted tags, the
output holds exactly one entry per concrete type plus two per abstract type,
every assigned value is positive, and a final node's `visit` returns the
range `(v, v)` for its own value `v` while emitting `(name, v)`. -/
theorem type_tags_assigns_consecutive (t : NType) (tags : List (String × Nat))
    (h : typeTags t = .ok tags) :
    ((finalsOf t).zip (List.range' 1 (finalsOf t).length)).Sublist tags ∧
    tags.length = (finalsOf t).length + 2 * absCount t ∧
    (∀ p ∈ (finalsOf t).zip (List.range' 1 (finalsOf t).length), 1 ≤ p.2) ∧
    (∀ (name cpp : String) (ms : List SMember) (cs : List NType)
       (st : List (String × Nat)) (n : Nat),
      visit (NType.mk name cpp true ms cs) st n =
        .ok ((n, n), (st ++ [(name, n)], n + 1))) := by
  rw [typeTags] at h
  cases h0 : visit t [] 1 with
  | error e => rw [h0] at h; cases h
  | ok r =>
    rw [h0] at h
    obtain ⟨⟨lo, hi⟩, tags0, n'⟩ := r
    simp only [Except.ok.injEq] at h
    obtain ⟨_, _, _, _, new, hnew, hsub, hlen⟩ :=
      visit_ok_spec t [] 1 lo hi tags0 n' h0
    simp only [List.nil_append] at hnew
    subst hnew
    subst h
    refine ⟨hsub, hlen, ?_, ?_⟩
    · intro p hp
      have := (List.of_mem_zip hp).2
      have hm := List.mem_range'_1.mp this
      omega
    · intro name cpp ms cs st n
      simp [visit]

/-- Witness for C1 at the spec's end-to-end example hierarchy. -/
theorem type_tags_assigns_consecutive_witness :
    ((finalsOf exTree).zip (List.range' 1 (finalsOf exTree).length)).Sublist exTags ∧
    exTags.length = (finalsOf exTree).length + 2 * absCount exTree ∧
    (∀ p ∈ (finalsOf exTree).zip (List.range' 1 (finalsOf exTree).length), 1 ≤ p.2) ∧
    (∀ (name cpp : String) (ms : List SMember) (cs : List NType)
       (st : List (String × Nat)) (n : Nat),
      visit (NType.mk name cpp true ms cs) st n =
        .ok ((n, n), (st ++ [(name, n)], n + 1))) :=
  type_tags_assigns_consecutive exTree exTags
    (by simp [typeTags, exTree, exTags, visit, visitChildren, combineMin, combineMax])

/-- C2: for every abstract node whose traversal succeeds (which entails every
abstract descendant grouping at least one concrete descendant), the emitted
`First`/`Last` values are the least and greatest values assigned in its
subtree: the range returned (and emitted) is exactly
`[n, n + k - 1]` where `n` is the counter on entry and `k` the number of
concrete descendants, the concrete descendants' values fill that interval
exactly (no gaps), and the children's subtrees occupy consecutive disjoint
subintervals `[n + S_i, n + S_{i+1} - 1]` (no overlap between siblings). -/
theorem type_tags_ranges (name cpp : String) (ms : List SMember) (cs : List NType)
    (ts : List (String × Nat)) (n lo hi n' : Nat) (ts' : List (String × Nat))
    (h : visit (NType.mk name cpp false ms cs) ts n = .ok ((lo, hi), (ts', n'))) :
    lo = n ∧ hi = n + (finalsList cs).length - 1 ∧ n' = n + (finalsList cs).length ∧
    1 ≤ (finalsList cs).length ∧
    (∃ mid, ts' = ts ++ mid ++ [("First" ++ name, lo), ("Last" ++ name, hi)]) ∧
    ((finalsList cs).zip (List.range' lo (finalsList cs).length)).Sublist ts' ∧
    (∀ v, lo ≤ v ∧ v ≤ hi ↔ v ∈ List.range' lo (finalsList cs).length) ∧
    (∀ i (hil : i < cs.length), ∃ out,
      visit (cs.get ⟨i, hil⟩) [] (n + prefFinals cs i) =
        .ok ((n + prefFinals cs i, n + prefFinals cs (i + 1) - 1),
             (out, n + prefFinals cs (i + 1)))) ∧
    (∀ i, i < cs.length → prefFinals cs i < prefFinals cs (i + 1)) := by
  have hmain := visit_ok_spec (NType.mk name cpp false ms cs) ts n lo hi ts' n' h
  obtain ⟨hlo, hn', hhi, hK, new, hnew, hsub, hlen⟩ := hmain
  rw [visit] at h
  simp only [Bool.false_eq_true, if_false] at h
  cases h0 : visitChildren cs ts n none none with
  | error e => rw [h0] at h; cases h
  | ok r =>
    rw [h0] at h
    obtain ⟨⟨first?, last?⟩, ts1, n1⟩ := r
    cases first? with
    | none => cases last? <;> simp at h
    | some f =>
      cases last? with
      | none => simp at h
      | some lst =>
        simp only [Except.ok.injEq, Prod.mk.injEq] at h
        obtain ⟨⟨hlo2, hhi2⟩, hts, hn⟩ := h
        obtain ⟨hn1, hall, hnil, hne, ⟨new1, hts1, hsub1, hlen1⟩, hchild⟩ :=
          visitChildren_ok_spec cs ts n none none (some f) (some lst) ts1 n1 h0
        have hfin : (finalsOf (NType.mk name cpp false ms cs)).length =
            (finalsList cs).length := by simp [finalsOf]
        rw [hfin] at hn' hhi hK
        refine ⟨hlo, hhi, hn', hK, ⟨new1, ?_⟩, ?_, ?_, ?_, ?_⟩
        · rw [← hts, hts1, hlo2, hhi2]
        · rw [← hts, hts1, hlo]
          have : ((finalsList cs).zip
              (List.range' n (finalsList cs).length)).Sublist (ts ++ new1) :=
            hsub1.trans (List.sublist_append_right ts new1)
          exact this.trans (List.sublist_append_left (ts ++ new1) _)
        · intro v
          rw [List.mem_range'_1]
          omega
        · exact hchild
        · exact prefFinals_lt cs hall

/-- Witness for C2 at the `Expr` subtree of the example hierarchy. -/
theorem type_tags_ranges_witness :
    (1 : Nat) = 1 ∧ (2 : Nat) = 1 + (finalsList exprChildren).length - 1 ∧
    (3 : Nat) = 1 + (finalsList exprChildren).length ∧
    1 ≤ (finalsList exprChildren).length ∧
    (∃ mid, exprOut = [] ++ mid ++ [("FirstExpr", 1), ("LastExpr", 2)]) ∧
    ((finalsList exprChildren).zip
      (List.range' 1 (finalsList exprChildren).length)).Sublist exprOut ∧
    (∀ v, 1 ≤ v ∧ v ≤ 2 ↔ v ∈ List.range' 1 (finalsList exprChildren).length) ∧
    (∀ i (hil : i < exprChildren.length), ∃ out,
      visit (exprChildren.get ⟨i, hil⟩) [] (1 + prefFinals exprChildren i) =
        .ok ((1 + prefFinals exprChildren i,
              1 + prefFinals exprChildren (i + 1) - 1),
             (out, 1 + prefFinals exprChildren (i + 1)))) ∧
    (∀ i, i < exprChildren.length →
      prefFinals exprChildren i < prefFinals exprChildren (i + 1)) :=
  type_tags_ranges "Expr" "AstExpr" [] exprChildren [] 1 1 2 3 exprOut
    (by simp [exprChildren, exprOut, visit, visitChildren, combineMin, combineMax])

/-- C4: `type_tags` fails (with its only error, `EmptyHierarchyError`) exactly
when the traversal reaches an abstract node with an empty `derived` list; the
reported name is that of such an abstract node reachable in the hierarchy.
In the embedding `visit` consumes the tree and returns only the tag state, so
it has no side effects on the registry by construction. -/
theorem type_tags_empty_hierarchy_iff (t : NType) :
    ((∃ tags, typeTags t = .ok tags) ↔ hasEmptyAbstract t = false) ∧
    (∀ nm, typeTags t = .error (.emptyHierarchy nm) →
      emptyAbstractNamed t nm = true) ∧
    (∀ e, typeTags t = .error e → ∃ nm, e = .emptyHierarchy nm) := by
  refine ⟨?_, ?_, ?_⟩
  · constructor
    · rintro ⟨tags, htags⟩
      rw [typeTags] at htags
      cases h0 : visit t [] 1 with
      | error e => rw [h0] at htags; cases htags
      | ok r =>
        by_cases hemp : hasEmptyAbstract t = true
        · obtain ⟨e, he⟩ := (visit_error_iff t [] 1).mpr hemp
          rw [he] at h0
          cases h0
        · cases hx : hasEmptyAbstract t
          · rfl
          · exact absurd hx hemp
    · intro hemp
      cases h0 : visit t [] 1 with
      | error e =>
        exfalso
        have : hasEmptyAbstract t = true := (visit_error_iff t [] 1).mp ⟨e, h0⟩
        rw [hemp] at this
        cases this
      | ok r =>
        obtain ⟨⟨lo, hi⟩, tags0, n'⟩ := r
        refine ⟨tags0, ?_⟩
        rw [typeTags, h0]
  · intro nm h
    rw [typeTags] at h
    cases h0 : visit t [] 1 with
    | ok r => rw [h0] at h; obtain ⟨⟨lo, hi⟩, tags0, n'⟩ := r; cases h
    | error e =>
      rw [h0] at h
      cases h
      exact visit_error_named t [] 1 nm h0
  · intro e h
    cases e with
    | emptyHierarchy nm => exact ⟨nm, rfl⟩

/-- Witness for C4: the example hierarchy allocates successfully, and the
hierarchy whose `Stmt` groups nothing is reported as `Stmt`. -/
theorem type_tags_empty_hierarchy_iff_witness :
    emptyAbstractNamed badTree "Stmt" = true ∧
    (∃ tags, typeTags exTree = .ok tags) :=
  ⟨(type_tags_empty_hierarchy_iff badTree).2.1 "Stmt"
      (by simp [typeTags, badTree, visit, visitChildren]),
   (type_tags_empty_hierarchy_iff exTree).1.mpr
      (by simp [exTree, hasEmptyAbstract, hasEmptyAbstractList])⟩

/-- C10: the two generations of the tag allocator —
`type_tags` in `src/support/codegen/ast.py` and `type_tags` in
`src/scripts/modules/codegen/ast.py` — are extensionally equal on every
resolved hierarchy: their `visit` recursions agree on every state, and the
produced tag tables are identical. -/
theorem type_tags_generations_equivalent :
    (∀ (t : NType) (ts : List (String × Nat)) (n : Nat),
      visitScripts t ts n = visit t ts n) ∧
    (∀ t, typeTagsScripts t = typeTags t) := by
  refine ⟨fun t ts n => visitScripts_eq t ts n, ?_⟩
  intro t
  rw [typeTagsScripts, typeTags, visitScripts_eq]

/-- C7: registering two `TypeDef`s with the same name fails with
`DuplicateNameError` naming that type, in whatever order the two same-named
definitions appear in the registration sequence (the statement quantifies
over all sequences); a sequence of distinct names registers them all. -/
theorem register_duplicate_name (ds : List TypeDef) :
    (((ds.map TypeDef.name).Nodup) → addAll [] ds = .ok ds) ∧
    (¬ ((ds.map TypeDef.name).Nodup) →
      ∃ s, addAll [] ds = .error (.duplicateName s) ∧
        2 ≤ ((ds.map TypeDef.name).count s)) := by
  obtain ⟨hok, herr⟩ := addAll_spec ds [] (by simp)
  simp only [List.nil_append] at hok herr
  exact ⟨hok, herr⟩

/-- Witness for C7: the same two same-named definitions fail in either
registration order. -/
theorem register_duplicate_name_witness :
    (∃ s, addAll [] [tdExpr, tdDup] = .error (.duplicateName s) ∧
      2 ≤ (([tdExpr, tdDup].map TypeDef.name).count s)) ∧
    (∃ s, addAll [] [tdDup, tdExpr] = .error (.duplicateName s) ∧
      2 ≤ (([tdDup, tdExpr].map TypeDef.name).count s)) ∧
    addAll [] [tdNode, tdExpr] = .ok [tdNode, tdExpr] :=
  ⟨(register_duplicate_name [tdExpr, tdDup]).2 (by decide),
   (register_duplicate_name [tdDup, tdExpr]).2 (by decide),
   (register_duplicate_name [tdNode, tdExpr]).1 (by decide)⟩

/-- C5: during `finish`, `__resolve_references` replaces every string `base`
by a resolved reference to the registered type of exactly that name, and for
`Node` definitions likewise every string `Node`/`NodeList` member reference,
leaving everything else unchanged (the pointwise relation
`defResolvedTo`); if any such string names no registered type, it fails with
`UnknownTypeError` for a referenced name that is not registered. -/
theorem resolve_references_spec (reg : List TypeDef) :
    (∀ reg', resolveReferences reg = .ok reg' →
      List.Forall₂ (defResolvedTo reg) reg reg') ∧
    (∀ e, resolveReferences reg = .error e →
      ∃ s, e = .unknownType s ∧ reg.find? (fun x => x.name == s) = none ∧
        s ∈ regRefStrings reg) ∧
    ((∃ s, s ∈ regRefStrings reg ∧ reg.find? (fun x => x.name == s) = none) →
      ∃ s, resolveReferences reg = .error (.unknownType s) ∧
        reg.find? (fun x => x.name == s) = none ∧ s ∈ regRefStrings reg) := by
  refine ⟨fun reg' h => resolveReferences_ok_rel reg reg' h,
    fun e h => resolveReferences_error reg e h, ?_⟩
  rintro ⟨s, hs, hnone⟩
  cases hres : resolveReferences reg with
  | ok reg' =>
    exfalso
    have hrel := resolveReferences_ok_rel reg reg' hres
    obtain ⟨d, hd, hds⟩ := List.mem_flatMap.mp hs
    obtain ⟨d', _, hdd'⟩ := forall₂_mem_left hrel d hd
    have := defResolvedTo_strings reg d d' hdd' s hds
    rw [hnone] at this
    cases this
  | error e =>
    obtain ⟨s', he, hf, hs'⟩ := resolveReferences_error reg e hres
    exact ⟨s', by rw [he], hf, hs'⟩

/-- Witness for C5: a registry with a string base reference and a string
member reference resolves both to the registered `Node` type; a registry
with a dangling string reference fails with `UnknownTypeError` for it. -/
theorem resolve_references_spec_witness :
    List.Forall₂ (defResolvedTo [tdNode, tdExpr]) [tdNode, tdExpr]
      [tdNode, tdExprResolved] ∧
    (∃ s, resolveReferences [tdExpr] = .error (.unknownType s) ∧
      List.find? (fun x => x.name == s) [tdExpr] = none ∧
      s ∈ regRefStrings [tdExpr]) :=
  ⟨(resolve_references_spec [tdNode, tdExpr]).1 [tdNode, tdExprResolved] rfl,
   (resolve_references_spec [tdExpr]).2.2 ⟨"Node", by decide, by decide⟩⟩

/-- C3: for every registration set whose names are distinct and whose
references all name registered types, if some definition's `base` resolves to
a `final` type, then the registry's construction (`__add_all` followed by
`finish`, embedded as `nodeRegistry`) fails with a `FinalDerivationError`
naming an offending final base type — wherever in the hierarchy that
derivation occurs — and, the whole pipeline being the error, any computation
sequenced after it (in particular tag allocation) never runs and returns
the same error. -/
theorem final_derivation_fails (ds : List TypeDef)
    (h1 : (ds.map TypeDef.name).Nodup)
    (h2 : ∀ s ∈ regRefStrings ds,
      (ds.find? (fun e => e.name == s)).isSome = true)
    (h3 : ∀ d ∈ ds, ∀ b, refName d.base = some b →
      (ds.find? (fun e => e.name == b)).isSome = true)
    (h4 : ∃ d ∈ ds, ∃ b bd, refName d.base = some b ∧
      ds.find? (fun e => e.name == b) = some bd ∧ bd.final = true) :
    ∃ b, nodeRegistry ds = .error (.finalDerivation b) ∧
      (∃ d ∈ ds, refName d.base = some b) ∧
      (∃ bd, ds.find? (fun e => e.name == b) = some bd ∧ bd.final = true) ∧
      (∀ (f : List TypeDef → Except RegError (List (String × Nat))),
        (nodeRegistry ds >>= f) = .error (.finalDerivation b)) := by
  have haddAll : addAll [] ds = .ok ds := by
    have := (addAll_spec ds [] (by simp)).1
    simp only [List.nil_append] at this
    exact this h1
  cases hres : resolveReferences ds with
  | error e =>
    exfalso
    obtain ⟨s, he, hf, hs⟩ := resolveReferences_error ds e hres
    have := h2 s hs
    rw [hf] at this
    cases this
  | ok ds' =>
    have hrel := resolveReferences_ok_rel ds ds' hres
    have hprof := find?_profile_of_rel ds ds ds' hrel
    have hfound : ∀ d' ∈ ds', ∀ b, d'.base = some (.resolved b) →
        (ds.find? (fun e => e.name == b)).isSome = true := by
      intro d' hd' b hb
      obtain ⟨d, hd, hdd'⟩ := forall₂_mem_right hrel d' hd'
      have hbase := hdd'.2.2.2.2.1
      match hdb : d.base with
      | none =>
        rw [hdb] at hbase
        rw [hbase] at hb
        cases hb
      | some (.resolved s) =>
        rw [hdb] at hbase
        rw [hbase] at hb
        simp only [Option.some.injEq, RefV.resolved.injEq] at hb
        subst hb
        exact h3 d hd s (by rw [hdb]; rfl)
      | some (.name s) =>
        rw [hdb] at hbase
        rw [hbase.1] at hb
        simp only [Option.some.injEq, RefV.resolved.injEq] at hb
        subst hb
        exact h3 d hd s (by rw [hdb]; rfl)
    have hex : ∃ d' ∈ ds', ∃ b bd, d'.base = some (.resolved b) ∧
        ds.find? (fun e => e.name == b) = some bd ∧ bd.final = true := by
      obtain ⟨d, hd, b, bd, hb, hfind, hfin⟩ := h4
      obtain ⟨d', hd', hdd'⟩ := forall₂_mem_left hrel d hd
      have hbase := hdd'.2.2.2.2.1
      refine ⟨d', hd', b, bd, ?_, hfind, hfin⟩
      match hdb : d.base with
      | none => rw [hdb] at hb; cases hb
      | some (.resolved s) =>
        rw [hdb] at hbase hb
        simp only [refName, Option.some.injEq] at hb
        subst hb
        exact hbase
      | some (.name s) =>
        rw [hdb] at hbase hb
        simp only [refName, Option.some.injEq] at hb
        subst hb
        exact hbase.1
    obtain ⟨b, bd, hrun, hmem, hf0, hff⟩ :=
      bindLoop_final_error ds' ds' ds hprof hfound hex
    have hnr : nodeRegistry ds = .error (.finalDerivation b) := by
      rw [nodeRegistry, haddAll]
      dsimp only
      rw [hres]
      dsimp only
      rw [bindBaseClasses, hrun]
    refine ⟨b, hnr, ?_, ⟨bd, hf0, hff⟩, ?_⟩
    · obtain ⟨d', hd', hb⟩ := hmem
      obtain ⟨d, hd, hdd'⟩ := forall₂_mem_right hrel d' hd'
      have hbase := hdd'.2.2.2.2.1
      refine ⟨d, hd, ?_⟩
      match hdb : d.base with
      | none =>
        rw [hdb] at hbase
        rw [hbase] at hb
        cases hb
      | some (.resolved s) =>
        rw [hdb] at hbase
        rw [hbase] at hb
        simp only [Option.some.injEq, RefV.resolved.injEq] at hb
        subst hb
        rfl
      | some (.name s) =>
        rw [hdb] at hbase
        rw [hbase.1] at hb
        simp only [Option.some.injEq, RefV.resolved.injEq] at hb
        subst hb
        rfl
    · intro f
      rw [hnr]
      rfl

/-- Witness for C3: a registry declaring a final type `B` and a type `C`
with `base = "B"` fails with `FinalDerivationError` and no continuation
(such as tag allocation) ever runs. -/
theorem final_derivation_fails_witness :
    ∃ b, nodeRegistry [tdFinalB, tdChildC] = .error (.finalDerivation b) ∧
      (∃ d ∈ [tdFinalB, tdChildC], refName d.base = some b) ∧
      (∃ bd, List.find? (fun e => e.name == b) [tdFinalB, tdChildC] = some bd ∧
        bd.final = true) ∧
      (∀ (f : List TypeDef → Except RegError (List (String × Nat))),
        (nodeRegistry [tdFinalB, tdChildC] >>= f) =
          .error (.finalDerivation b)) :=
  final_derivation_fails [tdFinalB, tdChildC] (by decide)
    (by decide)
    (by
      intro d hd b hb
      simp only [List.mem_cons, List.not_mem_nil, or_false] at hd
      rcases hd with rfl | rfl
      · simp [tdFinalB, refName] at hb
      · simp [tdChildC, refName] at hb
        subst hb
        decide)
    ⟨tdChildC, by decide, "B", tdFinalB, by decide, by decide, by decide⟩

/-- C8 counterexample: `set_doc_mode("tag")` on a union whose tag has no
`doc` succeeds (setting `doc_mode = "tag"`), instead of failing with a
`MissingDocError` as the claim states; no doc check exists in
`Union.set_doc_mode` (`src/scripts/modules/codegen/unions.py` lines 59-63). -/
theorem set_doc_mode_counterexample :
    exUnionNoDoc.tag.doc = none ∧
    mkUnion "U" exTagNoDoc [] none = .ok (exUnionNoDoc, exUnionNoDoc.tag) ∧
    setDocMode exUnionNoDoc "tag" = .ok { exUnionNoDoc with docMode := "tag" } := by
  refine ⟨rfl, ?_, rfl⟩
  rfl

/-- C8 (amended): `set_doc_mode("tag")` always succeeds and sets the schema's
`doc_mode` to `"tag"`, whether or not the Tag carries a doc string (no
`MissingDocError` is ever raised — the embedding's error type has no such
constructor); `set_doc_mode("member")` likewise succeeds, and any other
mode string fails with the invalid-value error. -/
theorem set_doc_mode_amended (u : CGUnion) :
    setDocMode u "tag" = .ok { u with docMode := "tag" } ∧
    setDocMode u "member" = .ok { u with docMode := "member" } ∧
    (∀ w, w ≠ "member" → w ≠ "tag" →
      setDocMode u w = .error (.invalidValue w)) := by
  refine ⟨?_, ?_, ?_⟩
  · rw [setDocMode, if_pos (Or.inr rfl)]
  · rw [setDocMode, if_pos (Or.inl rfl)]
  · intro w hm ht
    rw [setDocMode, if_neg ?_]
    rintro (h | h)
    · exact hm h
    · exact ht h

/-- Witness for the amended C8 at the doc-less example union. -/
theorem set_doc_mode_amended_witness :
    setDocMode exUnionNoDoc "tag" = .ok { exUnionNoDoc with docMode := "tag" } ∧
    setDocMode exUnionNoDoc "bogus" = .error (.invalidValue "bogus") :=
  ⟨(set_doc_mode_amended exUnionNoDoc).1,
   (set_doc_mode_amended exUnionNoDoc).2.2 "bogus" (by decide) (by decide)⟩

/-- C9: a `Tag` belongs to at most one union.  Constructing a `Union` (or the
older `TaggedUnion`) with a tag whose `union` back-reference is already set
fails with the tag-already-bound error and produces no new binding, while a
fresh tag (back-reference `None`, as `Tag.__init__` leaves it) is bound to
the newly constructed union; every other operation on the model (the
`set_*` capability setters) leaves the union's tag — hence the binding —
unchanged. -/
theorem tag_single_owner (name : String) (tag : UTag) (ms : List String)
    (doc : Option String) :
    (tag.union = none → ∃ u, mkUnion name tag ms doc =
      .ok (u, { tag with union := some name }) ∧
      u.tag = { tag with union := some name } ∧ u.name = name) ∧
    (∀ owner, tag.union = some owner →
      mkUnion name tag ms doc = .error .tagAlreadyBound) ∧
    (tag.union = none → ∃ u, mkTaggedUnion name tag ms doc =
      .ok (u, { tag with union := some name }) ∧
      u.tag = { tag with union := some name } ∧ u.name = name) ∧
    (∀ owner, tag.union = some owner →
      mkTaggedUnion name tag ms doc = .error .tagAlreadyBound) ∧
    (∀ (n ut : String) (sv : Option Nat) (dc : Option String),
      (mkTag n ut sv dc).union = none) ∧
    (∀ (u u' : CGUnion) (w : Option String),
      setFormatMode u w = .ok u' → u'.tag = u.tag) ∧
    (∀ (u u' : CGUnion) (w : Option String),
      setEqualityMode u w = .ok u' → u'.tag = u.tag) ∧
    (∀ (u u' : CGUnion) (w : Option String),
      setHashMode u w = .ok u' → u'.tag = u.tag) ∧
    (∀ (u u' : CGUnion) (w : String),
      setDocMode u w = .ok u' → u'.tag = u.tag) ∧
    (∀ (u u' : CGUnion) (w : String),
      setStorageMode u w = .ok u' → u'.tag = u.tag) ∧
    (∀ (u u' : CGUnion) (w : Bool), setFinal u w = .ok u' → u'.tag = u.tag) := by
  refine ⟨?_, ?_, ?_, ?_, ?_, ?_, ?_, ?_, ?_, ?_, ?_⟩
  · intro hnone
    rw [mkUnion, if_neg (by simp [hnone])]
    exact ⟨_, rfl, rfl, rfl⟩
  · intro owner howner
    rw [mkUnion, if_pos (by simp [howner])]
  · intro hnone
    rw [mkTaggedUnion, if_neg (by simp [hnone])]
    exact ⟨_, rfl, rfl, rfl⟩
  · intro owner howner
    rw [mkTaggedUnion, if_pos (by simp [howner])]
  · intro n ut sv dc
    rfl
  · intro u u' w h
    rw [setFormatMode] at h
    split at h
    · simp only [Except.ok.injEq] at h
      rw [← h]
    · cases h
  · intro u u' w h
    rw [setEqualityMode] at h
    split at h
    · simp only [Except.ok.injEq] at h
      rw [← h]
    · cases h
  · intro u u' w h
    rw [setHashMode] at h
    split at h
    · simp only [Except.ok.injEq] at h
      rw [← h]
    · cases h
  · intro u u' w h
    rw [setDocMode] at h
    split at h
    · simp only [Except.ok.injEq] at h
      rw [← h]
    · cases h
  · intro u u' w h
    rw [setStorageMode] at h
    split at h
    · simp only [Except.ok.injEq] at h
      rw [← h]
    · cases h
  · intro u u' w h
    rw [setFinal] at h
    simp only [Except.ok.injEq] at h
    rw [← h]

/-- Witness for C9: binding a fresh tag succeeds and sets its back-reference;
rebinding the now-bound tag fails. -/
theorem tag_single_owner_witness :
    (∃ u, mkUnion "U" exTagNoDoc [] none =
      .ok (u, { exTagNoDoc with union := some "U" }) ∧
      u.tag = { exTagNoDoc with union := some "U" } ∧ u.name = "U") ∧
    mkUnion "V" { exTagNoDoc with union := some "U" } [] none =
      .error .tagAlreadyBound :=
  ⟨(tag_single_owner "U" exTagNoDoc [] none).1 rfl,
   (tag_single_owner "V" { exTagNoDoc with union := some "U" } [] none).2.1
     "U" rfl⟩

/-- C6 counterexample: in a hierarchy where one node has a `Node` member and
a `NodeList` member referencing the same child node type (`AstExpr`),
`slot_types` returns two entries — the collection key is the member's
`cpp_type` (`AstPtr<AstExpr>` vs `AstNodeList<AstExpr>`), so members of
different kinds referencing the same node type do not collapse, contradicting
the claim's "exactly one entry per distinct child node type ... regardless of
member kind". -/
theorem slot_types_counterexample :
    childNodeNames exSlot = ["AstExpr", "AstExpr"] ∧
    slotTypes exSlot =
      [SMember.nodeList "rest" "AstExpr", SMember.node "first" "AstExpr"] ∧
    (slotTypes exSlot).length ≠ 1 := by
  have hcol : (collectSlots (walkTypes exSlot) [] []).2 =
      [SMember.nodeList "rest" "AstExpr", SMember.node "first" "AstExpr"] := by
    simp [exSlot, walkTypes, walkTypesList, collectSlots, collectMembers,
      SMember.cppType, SMember.isChild, NType.members]
  have hst : slotTypes exSlot =
      [SMember.nodeList "rest" "AstExpr", SMember.node "first" "AstExpr"] := by
    rw [slotTypes, hcol]
    refine List.mergeSort_of_sorted
      (List.Pairwise.cons ?_ (List.Pairwise.cons ?_ List.Pairwise.nil))
    · intro b hb
      simp only [List.mem_singleton] at hb
      subst hb
      simp only [SMember.cppType, decide_eq_true_eq]
      rw [String.le_iff_toList_le]
      decide
    · intro b hb
      cases hb
  refine ⟨?_, hst, ?_⟩
  · simp [childNodeNames, exSlot, walkTypes, walkTypesList, NType.members,
      SMember.isChild]
  · rw [hst]
    decide

/-- C6 (amended): `slot_types` returns exactly one entry per distinct
`cpp_type` of the `Node` / `NodeList` members occurring in the hierarchy —
i.e. per (member kind, child node type) pair, not per child node type — in
ascending order of that rendered member type; the result is a function of
the resolved hierarchy alone (so it does not depend on declaration order),
and every returned entry is a child (`Node`/`NodeList`) member. -/
theorem slot_types_amended (t : NType) :
    ((slotTypes t).map SMember.cppType).Nodup ∧
    ((slotTypes t).map SMember.cppType).Pairwise (fun a b => a ≤ b) ∧
    (∀ k, k ∈ (slotTypes t).map SMember.cppType ↔ k ∈ childSlotKeys t) ∧
    (∀ m ∈ slotTypes t, m.isChild = true) :=
  slotTypes_key_facts t

/-- Witness for the amended C6 at the two-member example hierarchy. -/
theorem slot_types_amended_witness :
    ((slotTypes exSlot).map SMember.cppType).Nodup ∧
    ((slotTypes exSlot).map SMember.cppType).Pairwise (fun a b => a ≤ b) ∧
    (∀ k, k ∈ (slotTypes exSlot).map SMember.cppType ↔ k ∈ childSlotKeys exSlot) ∧
    (∀ m ∈ slotTypes exSlot, m.isChild = true) :=
  slot_types_amended exSlot

end Tiro
